import Mathlib

/-
Verification development for the fixed-width codec library.

The library is a bidirectional codec for fixed-width column text.  This file
gives a shallow embedding of its core:

* the option/layout validator (`parseOptions` in `src/options.mjs` and the
  bundled copy of it, `parseFields$1`/`parseField$1`/`getWidth`/`getNextField`),
* the record codec (`parseFields`/`parseField`/`trimString` for decoding,
  `stringifyFields`/`stringifyField`/`stringifyValue` for encoding),
* the incremental line-splitting parser (`Parser.write`/`Parser.end` and
  `guessEndOfLine`).

Modelling conventions:

* JavaScript strings are `List Char`; option-level strings are `String`.
* JavaScript numbers appearing as option values are modelled by `JNum`
  (an integer, positive infinity, or a non-integral number of which only the
  truthiness is observable in the option checks).  Record-cell numbers are
  modelled as `Int` (the claims only exercise integral values, for which
  JavaScript's `toString(10)` agrees with decimal printing of the integer).
* A `Buffer` is represented by its `toString` behaviour, i.e. a function from
  the encoding name to the decoded character list.
* Errors become `Except`; the thrown `FixedWidthError`s are modelled by
  `FwError`, carrying the error code and the context keys the source attaches.
* The unbounded `while` loop of `getWidth` is rendered with explicit fuel
  `fields.length + 1`, which suffices for every field list whose widths are
  positive (the only lists the source ever passes to it, since `parseField`
  validates `width`); splitting on the end-of-line string is rendered with
  well-founded recursion on the text length.
-/

set_option maxHeartbeats 1000000

namespace FixedWidth

/-- Cast-hook context: the `{column, line, width}` object handed to a field's
`cast` hook by `parseField`. -/
structure CastCtx where
  column : Nat
  line : Int
  width : Nat

/-- Values a record cell can hold when encoding/decoding records.  `buffer`
carries the `toString` behaviour of a byte buffer (a map from encoding name to
decoded text); `obj` carries the result of the object's `valueOf()` primitive
conversion. -/
inductive CellVal where
  | undef
  | null
  | bool (b : Bool)
  | num (i : Int)
  | bigint (i : Int)
  | str (s : List Char)
  | buffer (toStr : String → List Char)
  | obj (valueOfResult : CellVal)

/-- JavaScript numbers as they occur in option values: an integer, positive
infinity, or a non-integral number (fraction, NaN, negative infinity), of
which only the truthiness is observable in the option checks. -/
inductive JNum where
  | int (i : Int)
  | posInf
  | nonint (truthyFlag : Bool)

/-- JavaScript values as they occur in option slots.  A function value carries
the two behaviours it may be used for (a decode `cast` hook and an encode
`stringify` hook). -/
inductive JVal where
  | undef
  | null
  | bool (b : Bool)
  | num (n : JNum)
  | str (s : String)
  | regexp
  | fn (castFn : List Char → CastCtx → CellVal) (stringifyFn : CellVal → CellVal)
  | sym
  | objv

/-- JavaScript truthiness of a `JVal`. -/
def JVal.truthy : JVal → Bool
  | .undef => false
  | .null => false
  | .bool b => b
  | .num (.int i) => i != 0
  | .num .posInf => true
  | .num (.nonint t) => t
  | .str s => s != ""
  | .regexp => true
  | .fn _ _ => true
  | .sym => true
  | .objv => true

/-- The JavaScript `a || b` defaulting idiom. -/
def jvOr (a b : JVal) : JVal := if a.truthy then a else b

/-- A normalized trim option: `true`, `false`, `'auto'`, `'left'` or
`'right'`. -/
inductive TrimOpt where
  | tru
  | fls
  | auto
  | left
  | right
deriving DecidableEq

/-- Field alignment. -/
inductive Align where
  | left
  | right
deriving DecidableEq

/-- A normalized field `property`: a string key, a symbol key, or the ordinal
index assigned to property-less fields. -/
inductive PropKey where
  | key (s : String)
  | symKey
  | idx (n : Nat)
deriving DecidableEq

/-- The normalized `to` option: an integer or `Number.POSITIVE_INFINITY`. -/
inductive ToVal where
  | fin (i : Int)
  | inf
deriving DecidableEq

/-- The normalized `eol` option: a string or a regular expression.  (The
parser model below only covers string end-of-line values.) -/
inductive EolV where
  | strE (e : List Char)
  | regexpE

/-- The record shape: keyed (`'object'`) or positional (`'array'`). -/
inductive OutShape where
  | object
  | array
deriving DecidableEq

/-- A normalized field spec, as built by `parseField` in `options.mjs`. -/
structure Field where
  align : Align
  cast : Option (List Char → CastCtx → CellVal)
  column : Nat
  pad : Char
  property : PropKey
  stringify : Option (CellVal → CellVal)
  trim : TrimOpt
  width : Nat

/-- The normalized options object returned by `parseOptions`.  `lineFrom` and
`lineTo` model the source's `from`/`to` keys (`from` is a Lean keyword). -/
structure ParsedOptions where
  allowLongerLines : Bool
  allowShorterLines : Bool
  encoding : String
  eof : Bool
  eol : EolV
  fields : List Field
  lineFrom : Int
  output : OutShape
  pad : Char
  skipEmptyLines : Bool
  lineTo : ToVal
  trim : TrimOpt
  width : Nat

/-- A raw field descriptor as handed to `parseField`: either a value failing
the `typeof field === 'object' && field !== null` test, or an object whose
slots hold arbitrary JavaScript values. -/
structure FieldObj where
  width : JVal
  column : JVal
  pad : JVal
  align : JVal
  trim : JVal
  property : JVal
  cast : JVal
  stringify : JVal

/-- A raw entry of the `fields` array. -/
inductive FieldItem where
  | nonObject
  | fobj (f : FieldObj)

/-- The raw `fields` option: an array of field descriptors, or any non-array
value (rejected by `parseFields`). -/
inductive FieldsV where
  | notArr
  | arr (items : List FieldItem)

/-- The raw options object handed to `parseOptions` (after `Object(options)`;
a primitive input behaves as an object whose every slot is `undefined`).
`lineFrom`/`lineTo` model the `from`/`to` keys. -/
structure OptionsObj where
  encoding : JVal
  pad : JVal
  eol : JVal
  lineFrom : JVal
  lineTo : JVal
  trim : JVal
  fields : FieldsV
  relax : JVal
  allowLongerLines : JVal
  allowShorterLines : JVal
  skipEmptyLines : JVal
  eof : JVal

/-- An `OptionsObj` whose every slot is `undefined`, with the given `fields`
slot. -/
def emptyOptionsObj (fields : FieldsV) : OptionsObj :=
  { encoding := .undef, pad := .undef, eol := .undef, lineFrom := .undef
    lineTo := .undef, trim := .undef, fields := fields, relax := .undef
    allowLongerLines := .undef, allowShorterLines := .undef
    skipEmptyLines := .undef, eof := .undef }

/-- The raw argument of `parseOptions`: an array (treated as
`{ fields: options }`) or an options object. -/
inductive OptionsInput where
  | arrIn (items : List FieldItem)
  | objIn (o : OptionsObj)

/-- The `Array.isArray(options) ? { fields: options } : Object(options)`
normalization at the top of `parseOptions`. -/
def toOptionsObj : OptionsInput → OptionsObj
  | .arrIn items => emptyOptionsObj (.arr items)
  | .objIn o => o

/-- `parseTrimOption` from `options.mjs`. -/
def parseTrimOption (value : JVal) (defaultValue : TrimOpt) : Except String TrimOpt :=
  match value with
  | .undef => .ok defaultValue
  | .bool true => .ok .tru
  | .bool false => .ok .fls
  | .str "auto" => .ok .auto
  | .str "left" => .ok .left
  | .str "right" => .ok .right
  | _ => .error "Invalid trim option"

/-- `parseField` from `options.mjs` (identical to the bundle's `parseField$1`):
validates one field descriptor and fills in defaults. -/
def parseField1 (field : FieldItem) (index : Nat) (defaultColumn : Nat)
    (defaultPad : Char) (defaultTrim : TrimOpt) : Except String Field := do
  match field with
  | .nonObject => Except.error "Field definition must be an object"
  | .fobj f =>
    let width ← match f.width with
      | .num (.int i) =>
        if 0 < i then pure i.toNat
        else Except.error "Field width must be a positive integer"
      | _ => Except.error "Field width must be a positive integer"
    let column ← match jvOr f.column (.num (.int defaultColumn)) with
      | .num (.int i) =>
        if 0 < i then pure i.toNat
        else Except.error "Field column must be a positive integer"
      | _ => Except.error "Field column must be a positive integer"
    let pad ← match jvOr f.pad (.str (String.mk [defaultPad])) with
      | .str s =>
        match s.toList with
        | [c] => pure c
        | _ => Except.error "Padding value (pad) must be a single char"
      | _ => Except.error "Padding value (pad) must be a string"
    let trim ← parseTrimOption f.trim defaultTrim
    pure {
      align := match f.align with | .str "right" => Align.right | _ => Align.left
      cast := match f.cast with | .fn c _ => some c | _ => none
      column := column
      pad := pad
      property := match f.property with
        | .str s => PropKey.key s
        | .sym => PropKey.symKey
        | _ => PropKey.idx index
      stringify := match f.stringify with | .fn _ g => some g | _ => none
      trim := trim
      width := width }

/-- The loop body of `parseFields` from `options.mjs`: walk the descriptor
list keeping the running default column. -/
def parseFields1Go (pad : Char) (trim : TrimOpt) :
    List FieldItem → Nat → Nat → Except String (List Field)
  | [], _, _ => .ok []
  | item :: rest, i, column => do
    let field ← parseField1 item i column pad trim
    let others ← parseFields1Go pad trim rest (i + 1) (column + field.width)
    pure (field :: others)

/-- `parseFields` from `options.mjs` (identical to the bundle's
`parseFields$1`). -/
def parseFields1 (items : FieldsV) (pad : Char) (trim : TrimOpt) :
    Except String (List Field) :=
  match items with
  | .notArr => .error "Fields option must be an array"
  | .arr items => parseFields1Go pad trim items 0 1

/-- `getNextField` from `options.mjs`: the usable field (column not below the
running column) with the smallest column, ties resolved to the earliest
array entry. -/
def getNextField (fields : List Field) (column : Nat) : Option Field :=
  match fields.filter (fun item => column ≤ item.column) with
  | [] => none
  | a :: rest => some (rest.foldl (fun a b => if b.column < a.column then b else a) a)

/-- The `while (analyzing)` loop of `getWidth`, with explicit fuel.  Returns
the final running column and the count of consumed fields.  For field lists
with positive widths, fuel `fields.length + 1` always reaches the
`getNextField = none` exit. -/
def getWidthLoop (fields : List Field) : Nat → Nat → Nat → Nat × Nat
  | 0, column, count => (column, count)
  | fuel + 1, column, count =>
    match getNextField fields column with
    | some field => getWidthLoop fields fuel (field.column + field.width) (count + 1)
    | none => (column, count)

/-- `getWidth` from `options.mjs`: walk the fields by ascending column and
derive the total width, rejecting empty and overlapping field lists. -/
def getWidth (fields : List Field) : Except String Nat :=
  let r := getWidthLoop fields (fields.length + 1) 1 0
  if r.2 = 0 then .error "At least one field is required"
  else if r.2 < fields.length then .error "Some fields are overlapping"
  else .ok (r.1 - 1)

/-- The `encoding` validation shared verbatim by both copies of
`parseOptions`: `options.encoding || 'utf8'` must be a string. -/
def optEncoding (o : OptionsObj) : Except String String :=
  match jvOr o.encoding (.str "utf8") with
  | .str s => .ok s
  | _ => .error "Encoding must be a string"

/-- The `pad` validation shared verbatim by both copies of `parseOptions`:
`options.pad || ' '` must be a single-character string. -/
def optPad (o : OptionsObj) : Except String Char :=
  match jvOr o.pad (.str " ") with
  | .str s =>
    match s.toList with
    | [c] => .ok c
    | _ => .error "Padding value (pad) must be a single char"
  | _ => .error "Padding value (pad) must be a string"

/-- The `eol` validation shared verbatim by both copies of `parseOptions`:
`options.eol || ''` must be a string or a regular expression. -/
def optEol (o : OptionsObj) : Except String EolV :=
  match jvOr o.eol (.str "") with
  | .str s => .ok (EolV.strE s.toList)
  | .regexp => .ok EolV.regexpE
  | _ => .error "End of line (eol) value must be a string"

/-- The `from` validation shared verbatim by both copies of `parseOptions`:
`options.from || 1` must be an integer. -/
def optFrom (o : OptionsObj) : Except String Int :=
  match jvOr o.lineFrom (.num (.int 1)) with
  | .num (.int i) => .ok i
  | _ => .error "Starting line (from) must be an integer"

/-- The `to` validation shared verbatim by both copies of `parseOptions`:
`options.to || Infinity` must be an integer or positive infinity. -/
def optTo (o : OptionsObj) : Except String ToVal :=
  match jvOr o.lineTo (.num .posInf) with
  | .num (.int i) => .ok (ToVal.fin i)
  | .num .posInf => .ok ToVal.inf
  | _ => .error "Ending line (to) must be an integer or infinity"

/-- The global `trim` default shared verbatim by both copies of
`parseOptions`: one of the three strings passes through, anything else
becomes `options.trim !== false`. -/
def optTrim (o : OptionsObj) : TrimOpt :=
  match o.trim with
  | .str "auto" => .auto
  | .str "left" => .left
  | .str "right" => .right
  | .bool false => .fls
  | _ => .tru

/-- The `properties` count of `parseOptions`: the number of fields whose
`property` is not a number (`fields.reduce(...)`). -/
def countProperties (fields : List Field) : Nat :=
  fields.foldl (fun acc f => acc + match f.property with | .idx _ => 0 | _ => 1) 0

/-- The tail shared verbatim by both copies of `parseOptions`, from the
`trim` computation on: parse the fields, derive the total width, enforce the
all-or-none `property` rule, and assemble the normalized options object. -/
def buildOptions (o : OptionsObj) (encoding : String) (pad : Char) (eol : EolV)
    (lineFrom : Int) (lineTo : ToVal) : Except String ParsedOptions := do
  let fields ← parseFields1 o.fields pad (optTrim o)
  let width ← getWidth fields
  if 0 < countProperties fields ∧ countProperties fields < fields.length then
    Except.error "Target property must be specifier by all fields"
  else
    pure {
      allowLongerLines := match o.relax with
        | .bool b => b
        | _ => match o.allowLongerLines with | .bool false => false | _ => true
      allowShorterLines := match o.relax with
        | .bool b => b
        | _ => match o.allowShorterLines with | .bool true => true | _ => false
      encoding := encoding
      eof := match o.eof with | .bool false => false | _ => true
      eol := eol
      fields := fields
      lineFrom := lineFrom
      output := if 0 < countProperties fields then .object else .array
      pad := pad
      skipEmptyLines := match o.skipEmptyLines with | .bool false => false | _ => true
      lineTo := lineTo
      trim := optTrim o
      width := width }

/-- `parseOptions` as bundled in the distribution file (`part_000`).  In this
copy the `to < from` validation is commented out in the source. -/
def parseOptionsBundle (input : OptionsInput) : Except String ParsedOptions := do
  let encoding ← optEncoding (toOptionsObj input)
  let pad ← optPad (toOptionsObj input)
  let eol ← optEol (toOptionsObj input)
  let lineFrom ← optFrom (toOptionsObj input)
  let lineTo ← optTo (toOptionsObj input)
  buildOptions (toOptionsObj input) encoding pad eol lineFrom lineTo

/-- `parseOptions` from `src/options.mjs`.  Identical to the bundled copy
except that it additionally rejects an ending line smaller than the starting
line (`if (to < from) throw ...`; `Infinity < from` is never true). -/
def parseOptionsMjs (input : OptionsInput) : Except String ParsedOptions := do
  let encoding ← optEncoding (toOptionsObj input)
  let pad ← optPad (toOptionsObj input)
  let eol ← optEol (toOptionsObj input)
  let lineFrom ← optFrom (toOptionsObj input)
  let lineTo ← optTo (toOptionsObj input)
  match lineTo with
  | .fin i =>
    if i < lineFrom then
      Except.error "Ending line (to) must be greater or equal to the starting line (from)"
    else buildOptions (toOptionsObj input) encoding pad eol lineFrom lineTo
  | .inf => buildOptions (toOptionsObj input) encoding pad eol lineFrom lineTo

/-! ## Record codec: shared pieces -/

/-- The `FixedWidthError` raised by the codec: the error `code` plus the
context keys the source attaches (`line` always; `column`/`width`/`value`
when present). -/
structure FwError where
  code : String
  line : Int
  column : Option Nat
  width : Option Nat
  value : Option CellVal

/-- A record: a positional array or a keyed object (an association list in
key-insertion order). -/
inductive Record where
  | arr (cells : List CellVal)
  | obj (kvs : List (PropKey × CellVal))

/-- JavaScript `obj[key] = value` on an association list: overwrite an
existing key in place, else append. -/
def setKey : List (PropKey × CellVal) → PropKey → CellVal → List (PropKey × CellVal)
  | [], p, v => [(p, v)]
  | (q, w) :: rest, p, v =>
    if q = p then (q, v) :: rest else (q, w) :: setKey rest p v

/-- JavaScript property read `obj[p]`, yielding `undefined` when absent. -/
def getProp (r : Record) (p : PropKey) : CellVal :=
  match r, p with
  | .arr cells, .idx i => cells.getD i .undef
  | .arr _, _ => .undef
  | .obj kvs, p =>
    match kvs.find? (fun kv => kv.1 = p) with
    | none => .undef
    | some kv => kv.2

/-- JavaScript `text.substring(a, b)` for `a ≤ b` (both clamped to the text
length). -/
def jsSubstring (text : List Char) (a b : Nat) : List Char :=
  (text.drop a).take (b - a)

/-! ## Record codec: decoding -/

/-- `trimStart` from the bundle: strip leading copies of the pad character. -/
def trimStart (value : List Char) (pad : Char) : List Char :=
  match value with
  | [] => []
  | c :: rest => if c = pad then trimStart rest pad else c :: rest

/-- `trimEnd` from the bundle: strip trailing copies of the pad character
(the source walks an index down from the end; stripping the reversed list
from the front is the same function). -/
def trimEnd (value : List Char) (pad : Char) : List Char :=
  (trimStart value.reverse pad).reverse

/-- `trim` from the bundle: strip the pad character from both ends. -/
def trim (value : List Char) (pad : Char) : List Char :=
  trimEnd (trimStart value pad) pad

/-- `trimString` from the bundle: dispatch on the field's trim mode. -/
def trimString (value : List Char) (pad : Char) (mode : TrimOpt) (align : Align) :
    List Char :=
  match mode with
  | .fls => value
  | .left => trimStart value pad
  | .right => trimEnd value pad
  | .auto => if align = .right then trimStart value pad else trimEnd value pad
  | .tru => trim value pad

/-- `parseField` from the bundle (decode direction): slice the field's
columns, trim, and apply the cast hook when present. -/
def parseField (text : List Char) (field : Field) (line : Int) : CellVal :=
  let index := field.column - 1
  let value := trimString (jsSubstring text index (index + field.width))
    field.pad field.trim field.align
  match field.cast with
  | none => .str value
  | some cast => cast value ⟨field.column, line, field.width⟩

/-- `parseFields` from the bundle (decode direction): length checks, then one
`parseField` per field, assembled positionally or into a keyed object. -/
def parseFields (text : List Char) (options : ParsedOptions) (line : Int) :
    Except FwError Record :=
  if options.width < text.length ∧ !options.allowLongerLines then
    .error ⟨"UNEXPECTED_LINE_LENGTH", line, none, none, some (.str text)⟩
  else if text.length < options.width ∧ !options.allowShorterLines then
    .error ⟨"UNEXPECTED_LINE_LENGTH", line, none, none, some (.str text)⟩
  else if options.output = .object then
    .ok (.obj (options.fields.foldl
      (fun acc field => setKey acc field.property (parseField text field line)) []))
  else
    .ok (.arr (options.fields.map (fun field => parseField text field line)))

/-! ## Record codec: encoding -/

/-- `stringifyPrimitiveValue` from the bundle: render primitives, passing
anything else through unchanged. -/
def stringifyPrimitiveValue : CellVal → CellVal
  | .undef => .str []
  | .null => .str []
  | .bool b => .str (if b then ['1'] else ['0'])
  | .num i => .str (toString i).toList
  | .bigint i => .str (toString i).toList
  | v => v

/-- `stringifyValue` from the bundle: buffers decode under the configured
encoding; a non-null object is unwrapped via `valueOf()` first; everything
else goes through `stringifyPrimitiveValue`. -/
def stringifyValue (value : CellVal) (encoding : String) : CellVal :=
  match value with
  | .buffer toStr => .str (toStr encoding)
  | .obj inner => stringifyPrimitiveValue inner
  | v => stringifyPrimitiveValue v

/-- JavaScript `value.padStart(width, pad)` for a single-character pad. -/
def padStartJs (value : List Char) (width : Nat) (pad : Char) : List Char :=
  List.replicate (width - value.length) pad ++ value

/-- JavaScript `value.padEnd(width, pad)` for a single-character pad. -/
def padEndJs (value : List Char) (width : Nat) (pad : Char) : List Char :=
  value ++ List.replicate (width - value.length) pad

/-- `stringifyField` from the bundle: read the field's value, apply the
stringify hook, coerce to a string, check the width, and pad per the
alignment. -/
def stringifyField (obj : Record) (field : Field) (options : ParsedOptions)
    (line : Int) : Except FwError (List Char) :=
  let value := getProp obj field.property
  let value := match field.stringify with
    | some f => f value
    | none => value
  match stringifyValue value options.encoding with
  | .str s =>
    if field.width < s.length then
      .error ⟨"FIELD_VALUE_OVERFLOW", line, some field.column, some field.width,
        some (.str s)⟩
    else if field.align = .right then
      .ok (padStartJs s field.width field.pad)
    else
      .ok (padEndJs s field.width field.pad)
  | v =>
    .error ⟨"EXPECTED_STRING_VALUE", line, some field.column, some field.width,
      some v⟩

/-- `replaceWith` from the bundle: splice `value` into `text` at `index`,
overwriting `value.length` characters. -/
def replaceWith (text value : List Char) (index : Nat) : List Char :=
  text.take index ++ value ++ text.drop (index + value.length)

/-- `stringifyFields` from the bundle: start from `totalWidth` copies of the
global pad character and splice every field's rendering in at its column. -/
def stringifyFields (obj : Record) (options : ParsedOptions) (line : Int) :
    Except FwError (List Char) :=
  options.fields.foldlM
    (fun text field => do
      let v ← stringifyField obj field options line
      pure (replaceWith text v (field.column - 1)))
    (List.replicate options.width options.pad)

/-! ## Line assembler / parser -/

/-- The index and character of the first line-break character (`\r` or `\n`)
of the text: the match data of `text.match(/[\r\n]{1,2}/)` that
`guessEndOfLine` inspects. -/
def firstBreak : List Char → Option (Nat × Char)
  | [] => none
  | c :: rest =>
    if c = '\r' ∨ c = '\n' then some (0, c)
    else (firstBreak rest).map (fun p => (p.1 + 1, p.2))

/-- Leftmost occurrence of the (nonempty) separator in the text: the text
before it and the text after it. -/
def findSep (sep : List Char) : List Char → Option (List Char × List Char)
  | [] => none
  | c :: rest =>
    if sep.isPrefixOf (c :: rest) then some ([], (c :: rest).drop sep.length)
    else
      match findSep sep rest with
      | some (pre, post) => some (c :: pre, post)
      | none => none

theorem findSep_post_length {sep : List Char} (hsep : sep ≠ []) :
    ∀ {s pre post : List Char}, findSep sep s = some (pre, post) →
      post.length < s.length := by
  intro s
  induction s with
  | nil => intro pre post h; simp [findSep] at h
  | cons c rest ih =>
    intro pre post h
    unfold findSep at h
    by_cases hp : sep.isPrefixOf (c :: rest)
    · simp only [hp, if_pos] at h
      obtain ⟨-, h2⟩ := Prod.mk.injEq .. ▸ (Option.some.injEq .. ▸ h)
      subst h2
      have hlen : 1 ≤ sep.length := by
        cases sep with
        | nil => exact absurd rfl hsep
        | cons _ _ => simp
      calc ((c :: rest).drop sep.length).length
          = (c :: rest).length - sep.length := by simp
        _ < (c :: rest).length := by simp; omega
    · simp only [hp, if_neg, if_false] at h
      match hfind : findSep sep rest with
      | some (pre', post') =>
        rw [hfind] at h
        obtain ⟨-, h2⟩ := Prod.mk.injEq .. ▸ (Option.some.injEq .. ▸ h)
        subst h2
        exact Nat.lt_trans (ih hfind) (by simp)
      | none => rw [hfind] at h; exact absurd h (by simp)

/-- `guessEndOfLine` from the bundle: prefer a `\r\n` occurring anywhere
(`/\r\n/.test(text)`, modelled as `findSep` finding an occurrence); otherwise
look at the first line-break character: a `\n` gives `\n`, a `\r` gives `\r`
only when more content follows it. -/
def guessEndOfLine (text : List Char) : Option (List Char) :=
  if (findSep ['\r', '\n'] text).isSome then some ['\r', '\n']
  else
    match firstBreak text with
    | some (index, c) =>
      if c = '\n' then some ['\n']
      else if index + 1 < text.length then some ['\r']
      else none
    | none => none

/-- The recursion of JavaScript `text.split(sep)` with explicit fuel: peel
off leftmost separator occurrences.  For a nonempty separator, fuel
`s.length + 1` always reaches the no-occurrence exit. -/
def splitOnSeqF (sep : List Char) : Nat → List Char → List (List Char)
  | 0, s => [s]
  | fuel + 1, s =>
    if sep = [] then [s]
    else
      match findSep sep s with
      | some (pre, post) => pre :: splitOnSeqF sep fuel post
      | none => [s]

/-- JavaScript `text.split(sep)` for a nonempty string separator: leftmost,
non-overlapping splitting.  (The parser only splits when the end-of-line
value is truthy, i.e. a nonempty string, in the fragment modelled here.) -/
def splitOnSeq (sep : List Char) (s : List Char) : List (List Char) :=
  splitOnSeqF sep (s.length + 1) s

theorem splitOnSeqF_congr {sep : List Char} (hsep : sep ≠ []) :
    ∀ (fuel1 fuel2 : Nat) (s : List Char), s.length < fuel1 →
      s.length < fuel2 → splitOnSeqF sep fuel1 s = splitOnSeqF sep fuel2 s := by
  intro fuel1
  induction fuel1 with
  | zero => intro fuel2 s h1 h2; omega
  | succ f1 ih =>
    intro fuel2 s h1 h2
    cases fuel2 with
    | zero => omega
    | succ f2 =>
      simp only [splitOnSeqF, if_neg hsep]
      match hfind : findSep sep s with
      | some (pre, post) =>
        have hlt := findSep_post_length hsep hfind
        show pre :: splitOnSeqF sep f1 post = pre :: splitOnSeqF sep f2 post
        rw [ih f2 post (by omega) (by omega)]
      | none => rfl

/-- The defining recurrence of `splitOnSeq` for a nonempty separator. -/
theorem splitOnSeq_eq {sep : List Char} (hsep : sep ≠ []) (s : List Char) :
    splitOnSeq sep s =
      match findSep sep s with
      | some (pre, post) => pre :: splitOnSeq sep post
      | none => [s] := by
  show splitOnSeqF sep (s.length + 1) s = _
  simp only [splitOnSeqF, if_neg hsep]
  match hfind : findSep sep s with
  | some (pre, post) =>
    have hlt := findSep_post_length hsep hfind
    show pre :: splitOnSeqF sep (s.length) post = pre :: splitOnSeq sep post
    exact congrArg _ (splitOnSeqF_congr hsep _ _ post (by omega) (by omega))
  | none => rfl

/-- The mutable state of a `Parser` instance: the (possibly auto-detected)
end-of-line value stored back into `this.options.eol`, the carry text, the
1-based line counter, and the lines-seen count of the latest `write`. -/
structure PState where
  eolCur : List Char
  text : List Char
  line : Int
  totalLines : Int

/-- The out-of-range test of `Parser.write`/`Parser.end`: the four `if`
statements over `from`/`to`, with negative bounds resolved against
`totalLines + 1 + bound`. -/
def outOfRange (lineFrom : Int) (lineTo : ToVal) (totalLines line : Int) : Bool :=
  (decide (0 < lineFrom) && decide (line < lineFrom)) ||
  (decide (lineFrom < 0) && decide (line < totalLines + 1 + lineFrom)) ||
  (match lineTo with
   | .fin t =>
     (decide (0 < t) && decide (t < line)) ||
     (decide (t < 0) && decide (totalLines + 1 + t < line))
   | .inf => false)

/-- The `for (const chunk of chunks)` loop of `Parser.write`: emit the
`(line number, text)` pair of every line that survives the range filter and
the empty-line policy, threading the line counter exactly as the source does
(an out-of-range line increments it; an in-range empty line skipped by
`skipEmptyLines` does not). -/
def emitLines (options : ParsedOptions) (totalLines : Int) :
    Int → List (List Char) → List (Int × List Char) × Int
  | line, [] => ([], line)
  | line, chunk :: rest =>
    if outOfRange options.lineFrom options.lineTo totalLines line then
      emitLines options totalLines (line + 1) rest
    else if 0 < chunk.length ∨ !options.skipEmptyLines then
      let r := emitLines options totalLines (line + 1) rest
      ((line, chunk) :: r.1, r.2)
    else
      emitLines options totalLines line rest

/-- `Parser.write` for string input and a string `eol`: append the chunk,
auto-detect the end-of-line value if it is still unset, split off the
complete lines (the last split segment stays as carry), and emit them through
the range filter.  Returns the emitted `(line number, text)` pairs and the
new state. -/
def writeStep (options : ParsedOptions) (s : PState) (input : List Char) :
    List (Int × List Char) × PState :=
  let text := s.text ++ input
  let eolCur :=
    if s.eolCur = [] then
      match guessEndOfLine text with
      | some e => e
      | none => []
    else s.eolCur
  if eolCur = [] then ([], ⟨eolCur, text, s.line, s.totalLines⟩)
  else
    let chunks := splitOnSeq eolCur text
    let carry := chunks.getLastD []
    let complete := chunks.dropLast
    let totalLines : Int :=
      if 0 < carry.length then (complete.length : Int) + 1 else complete.length
    let r := emitLines options totalLines s.line complete
    (r.1, ⟨eolCur, carry, r.2, totalLines⟩)

/-- `Parser.end`: flush a nonempty carry as one final line (subject to the
range filter), then reset the mutable state — except the detected `eol`,
which stays locked in on the options object. -/
def endStep (options : ParsedOptions) (s : PState) :
    List (Int × List Char) × PState :=
  let evs :=
    if 0 < s.text.length &&
        !outOfRange options.lineFrom options.lineTo s.totalLines s.line then
      [(s.line, s.text)]
    else []
  (evs, ⟨s.eolCur, [], 1, 0⟩)

/-- Feed a list of chunks through `writeStep`, concatenating the emitted
line events. -/
def runChunks (options : ParsedOptions) :
    PState → List (List Char) → List (Int × List Char) × PState
  | s, [] => ([], s)
  | s, c :: cs =>
    let r1 := writeStep options s c
    let r2 := runChunks options r1.2 cs
    (r1.1 ++ r2.1, r2.2)

/-- All `(line number, text)` pairs a fresh parser (with initial end-of-line
value `eol0`, the string form of `options.eol`) hands to the record codec
when fed the given chunks followed by `Parser.end`. -/
def parseEvents (options : ParsedOptions) (eol0 : List Char)
    (chunks : List (List Char)) : List (Int × List Char) :=
  let r := runChunks options ⟨eol0, [], 1, 0⟩ chunks
  r.1 ++ (endStep options r.2).1

/-- The record sequence produced by feeding the chunks and ending: each
emitted line goes through `parseFields` (a failed decode appears as the
`Except.error` at its position; the source generator stops at the first
error, so equal event lists give equal record streams either way). -/
def parseRecords (options : ParsedOptions) (eol0 : List Char)
    (chunks : List (List Char)) : List (Except FwError Record) :=
  (parseEvents options eol0 chunks).map
    (fun ev => parseFields ev.2 options ev.1)

/-! ## Concrete example layouts used when instantiating the claims -/

/-- A field with the default align/cast/pad/stringify/trim settings. -/
def exField (column width : Nat) (property : PropKey) : Field :=
  { align := .left, cast := none, column := column, pad := ' '
    property := property, stringify := none, trim := .tru, width := width }

/-- A `ParsedOptions` with all defaults, `eol` fixed to `"\n"`, and the given
fields, total width and `allowShorterLines` flag. -/
def exOptions (fields : List Field) (width : Nat) (allowShorter : Bool) :
    ParsedOptions :=
  { allowLongerLines := true, allowShorterLines := allowShorter
    encoding := "utf8", eof := true, eol := .strE ['\n'], fields := fields
    lineFrom := 1, output := .array, pad := ' ', skipEmptyLines := true
    lineTo := .inf, trim := .tru, width := width }

/-- A raw field descriptor carrying only a `width`. -/
def exItemW (w : Int) : FieldItem :=
  .fobj ⟨.num (.int w), .undef, .undef, .undef, .undef, .undef, .undef, .undef⟩

/-- The input of the bundled test's `defaults` case:
`{ eol: '\n', fields: [{ width: 2 }, { width: 2 }] }`. -/
def exDefaultsInput : OptionsInput :=
  .objIn { emptyOptionsObj (.arr [exItemW 2, exItemW 2]) with eol := .str "\n" }

/-- The two-field positional layout `[{width:2},{width:2}]` at columns 1 and
3 (total width 4). -/
def exLayout22 : List Field := [exField 1 2 (.idx 0), exField 3 2 (.idx 1)]

/-- A one-field width-1 layout with every default. -/
def exLayout1 : List Field := [exField 1 1 (.idx 0)]

/-! ## The getWidth walk (claim C3) -/

/-- Two fields occupy disjoint column ranges. -/
def fdisj (f g : Field) : Prop :=
  f.column + f.width ≤ g.column ∨ g.column + g.width ≤ f.column

theorem fdisj_symm {f g : Field} (h : fdisj f g) : fdisj g f := h.symm

theorem foldlMin_mem (a : Field) (rest : List Field) :
    (rest.foldl (fun a b => if b.column < a.column then b else a) a) ∈ a :: rest := by
  induction rest generalizing a with
  | nil => simp
  | cons b bs ih =>
    simp only [List.foldl_cons]
    rcases List.mem_cons.mp (ih (if b.column < a.column then b else a)) with h | h
    · rw [h]
      by_cases hb : b.column < a.column
      · rw [if_pos hb]; exact .tail _ (List.mem_cons_self b bs)
      · rw [if_neg hb]; exact List.mem_cons_self a (b :: bs)
    · exact .tail _ (.tail _ h)

theorem foldlMin_le (a : Field) (rest : List Field) :
    ∀ g ∈ a :: rest,
      (rest.foldl (fun a b => if b.column < a.column then b else a) a).column ≤
        g.column := by
  induction rest generalizing a with
  | nil => simp
  | cons b bs ih =>
    intro g hg
    simp only [List.foldl_cons]
    have hle : (if b.column < a.column then b else a).column ≤ a.column ∧
        (if b.column < a.column then b else a).column ≤ b.column := by
      by_cases hb : b.column < a.column
      · rw [if_pos hb]; omega
      · rw [if_neg hb]; omega
    rcases List.mem_cons.mp hg with h | hg'
    · subst h; exact le_trans (ih _ _ (List.mem_cons_self _ _)) hle.1
    rcases List.mem_cons.mp hg' with h | h
    · subst h; exact le_trans (ih _ _ (List.mem_cons_self _ _)) hle.2
    · exact ih _ g (List.mem_cons_of_mem _ h)

theorem foldlMin_keep (a : Field) (rest : List Field)
    (h : ∀ g ∈ rest, a.column ≤ g.column) :
    rest.foldl (fun a b => if b.column < a.column then b else a) a = a := by
  induction rest with
  | nil => rfl
  | cons b bs ih =>
    simp only [List.foldl_cons]
    rw [if_neg (by have := h b (List.mem_cons_self b bs); omega)]
    exact ih (fun g hg => h g (List.mem_cons_of_mem _ hg))

theorem getNextField_none_iff (fields : List Field) (c : Nat) :
    getNextField fields c = none ↔
      fields.filter (fun item => c ≤ item.column) = [] := by
  unfold getNextField
  cases fields.filter (fun item => c ≤ item.column) <;> simp

theorem getNextField_some_spec {fields : List Field} {c : Nat} {f : Field}
    (h : getNextField fields c = some f) :
    f ∈ fields ∧ c ≤ f.column ∧
      ∀ g ∈ fields, c ≤ g.column → f.column ≤ g.column := by
  unfold getNextField at h
  cases hfil : fields.filter (fun item => c ≤ item.column) with
  | nil => rw [hfil] at h; exact absurd h (by simp)
  | cons a rest =>
    rw [hfil] at h
    simp only [Option.some.injEq] at h
    subst h
    have hmem : (rest.foldl (fun a b => if b.column < a.column then b else a) a)
        ∈ a :: rest := foldlMin_mem a rest
    rw [← hfil] at hmem
    refine ⟨List.mem_of_mem_filter hmem, ?_, ?_⟩
    · have := List.of_mem_filter hmem
      simpa using this
    · intro g hg hcg
      have hgf : g ∈ fields.filter (fun item => c ≤ item.column) :=
        List.mem_filter.mpr ⟨hg, by simpa using hcg⟩
      rw [hfil] at hgf
      exact foldlMin_le a rest g hgf

theorem getNextField_head {f : Field} {rest : List Field} {c : Nat}
    (hf : c ≤ f.column) (hmin : ∀ g ∈ rest, c ≤ g.column → f.column ≤ g.column) :
    getNextField (f :: rest) c = some f := by
  unfold getNextField
  have hfil : (f :: rest).filter (fun item => c ≤ item.column) =
      f :: rest.filter (fun item => c ≤ item.column) := by
    simp [List.filter_cons, hf]
  rw [hfil]
  show some (List.foldl (fun a b => if b.column < a.column then b else a) f
    (rest.filter (fun item => c ≤ item.column))) = some f
  rw [foldlMin_keep]
  intro g hg
  exact hmin g (List.mem_of_mem_filter hg) (by simpa using List.of_mem_filter hg)

/-- A field whose column is already strictly below the running column can
never be consumed by the walk: dropping it does not change the loop. -/
theorem getWidthLoop_dead_head (x : Field) (rest : List Field) :
    ∀ (fuel c cnt : Nat), x.column < c →
      getWidthLoop (x :: rest) fuel c cnt = getWidthLoop rest fuel c cnt := by
  intro fuel
  induction fuel with
  | zero => intro c cnt _; rfl
  | succ fuel ih =>
    intro c cnt hx
    have hnf : getNextField (x :: rest) c = getNextField rest c := by
      unfold getNextField
      have : (x :: rest).filter (fun item => c ≤ item.column) =
          rest.filter (fun item => c ≤ item.column) := by
        simp [List.filter_cons, Nat.not_le.mpr hx]
      rw [this]
    simp only [getWidthLoop, hnf]
    cases hnext : getNextField rest c with
    | none => rfl
    | some f =>
      have hspec := getNextField_some_spec hnext
      exact ih (f.column + f.width) (cnt + 1) (by omega)

/-- The walk over a column-sorted, pairwise non-overlapping field list (gaps
allowed) consumes every field in order and ends one past the last field's
range. -/
theorem getWidthLoop_sorted (fs : List Field) :
    ∀ (fuel c cnt : Nat), fs.length < fuel →
      (∀ f ∈ fs, 1 ≤ f.width) →
      (∀ f ∈ fs, c ≤ f.column) →
      List.Pairwise (fun a b => a.column + a.width ≤ b.column) fs →
      getWidthLoop fs fuel c cnt =
        ((match fs.getLast? with
          | some l => l.column + l.width
          | none => c), cnt + fs.length) := by
  induction fs with
  | nil =>
    intro fuel c cnt hfuel _ _ _
    match fuel, hfuel with
    | fuel + 1, _ =>
      simp [getWidthLoop, getNextField]
  | cons f rest ih =>
    intro fuel c cnt hfuel hw hcols hsorted
    match fuel, hfuel with
    | fuel + 1, hfuel =>
      have hhead := List.pairwise_cons.mp hsorted
      have hnf : getNextField (f :: rest) c = some f :=
        getNextField_head (hcols f (List.mem_cons_self f rest))
          (fun g hg _ => by have := hhead.1 g hg; omega)
      simp only [getWidthLoop, hnf]
      have hwf : 1 ≤ f.width := hw f (List.mem_cons_self f rest)
      rw [getWidthLoop_dead_head f rest fuel (f.column + f.width) (cnt + 1)
        (by omega)]
      simp only [List.length_cons] at hfuel
      rw [ih fuel (f.column + f.width) (cnt + 1) (by omega)
        (fun g hg => hw g (List.mem_cons_of_mem _ hg))
        (fun g hg => hhead.1 g hg) hhead.2]
      cases rest with
      | nil => simp
      | cons g gs =>
        rw [List.getLast?_cons_cons]
        simp only [List.length_cons]
        cases hl : (g :: gs).getLast? with
        | none => exact absurd (List.getLast?_eq_none_iff.mp hl) (by simp)
        | some l => exact Prod.ext rfl (by omega)

/-- The fields still reachable by the walk at running column `c`. -/
def liveFields (fields : List Field) (c : Nat) : List Field :=
  fields.filter (fun item => c ≤ item.column)

theorem filter_length_mono {l : List Field} {p q : Field → Bool}
    (hpq : ∀ x ∈ l, p x = true → q x = true) :
    (l.filter p).length ≤ (l.filter q).length := by
  induction l with
  | nil => simp
  | cons a t ih =>
    have iht := ih (fun x hx h => hpq x (List.mem_cons_of_mem _ hx) h)
    by_cases hp : p a = true
    · have hq := hpq a (List.mem_cons_self a t) hp
      simp only [List.filter_cons, hp, hq, if_pos, List.length_cons]
      omega
    · simp only [List.filter_cons, Bool.not_eq_true] at hp ⊢
      rw [hp]
      by_cases hq : q a = true
      · simp only [hq, if_pos, if_neg, List.length_cons]
        simp only [Bool.false_eq_true, if_false]
        omega
      · simp only [Bool.not_eq_true] at hq
        rw [hq]
        simpa using iht

theorem filter_length_lt {l : List Field} {f : Field} {p q : Field → Bool}
    (hf : f ∈ l) (hpq : ∀ x ∈ l, p x = true → q x = true)
    (hqf : q f = true) (hpf : p f = false) :
    (l.filter p).length < (l.filter q).length := by
  induction l with
  | nil => cases hf
  | cons a t ih =>
    rcases List.mem_cons.mp hf with rfl | hft
    · have hmono : (t.filter p).length ≤ (t.filter q).length :=
        filter_length_mono (fun x hx h => hpq x (List.mem_cons_of_mem _ hx) h)
      simp only [List.filter_cons, hpf, hqf, if_pos, Bool.false_eq_true,
        if_false, List.length_cons]
      omega
    · have iht := ih hft (fun x hx h => hpq x (List.mem_cons_of_mem _ hx) h)
      by_cases hpa : p a = true
      · have hqa := hpq a (List.mem_cons_self a t) hpa
        simp only [List.filter_cons, hpa, hqa, if_pos, List.length_cons]
        omega
      · simp only [Bool.not_eq_true] at hpa
        by_cases hqa : q a = true
        · simp only [List.filter_cons, hpa, hqa, if_pos, Bool.false_eq_true,
            if_false, List.length_cons]
          omega
        · simp only [Bool.not_eq_true] at hqa
          simp only [List.filter_cons, hpa, hqa, Bool.false_eq_true, if_false]
          exact iht

/-- Each iteration of the walk consumes at least one live field: the final
count is bounded by the live-field count. -/
theorem getWidthLoop_count_le (fields : List Field)
    (hw : ∀ f ∈ fields, 1 ≤ f.width) :
    ∀ (fuel c cnt : Nat),
      (getWidthLoop fields fuel c cnt).2 ≤ cnt + (liveFields fields c).length := by
  intro fuel
  induction fuel with
  | zero => intro c cnt; simp [getWidthLoop]
  | succ fuel ih =>
    intro c cnt
    cases hnf : getNextField fields c with
    | none =>
      have hstep : getWidthLoop fields (fuel + 1) c cnt = (c, cnt) := by
        simp only [getWidthLoop, hnf]
      rw [hstep]
      simp
    | some f =>
      obtain ⟨hmem, hcf, -⟩ := getNextField_some_spec hnf
      have hwf := hw f hmem
      have hstep : getWidthLoop fields (fuel + 1) c cnt =
          getWidthLoop fields fuel (f.column + f.width) (cnt + 1) := by
        simp only [getWidthLoop, hnf]
      rw [hstep]
      have hlt : (liveFields fields (f.column + f.width)).length <
          (liveFields fields c).length := by
        refine filter_length_lt hmem ?_ (by simpa using hcf) (by simp; omega)
        intro x _ hx
        simp only [decide_eq_true_eq] at hx ⊢
        omega
      calc (getWidthLoop fields fuel (f.column + f.width) (cnt + 1)).2
          ≤ cnt + 1 + (liveFields fields (f.column + f.width)).length := ih _ _
        _ ≤ cnt + (liveFields fields c).length := by omega

/-- If the walk consumes every live field, then all live fields end within
the final column, and they are pairwise disjoint. -/
theorem getWidthLoop_complete (fields : List Field)
    (hw : ∀ f ∈ fields, 1 ≤ f.width) :
    ∀ (fuel c cnt : Nat), (liveFields fields c).length < fuel →
      (getWidthLoop fields fuel c cnt).2 = cnt + (liveFields fields c).length →
      (∀ f ∈ fields, c ≤ f.column →
        f.column + f.width ≤ (getWidthLoop fields fuel c cnt).1) ∧
      c ≤ (getWidthLoop fields fuel c cnt).1 ∧
      (liveFields fields c).Pairwise fdisj := by
  intro fuel
  induction fuel with
  | zero => intro c cnt h; omega
  | succ fuel ih =>
    intro c cnt hfuel hcnt
    cases hnf : getNextField fields c with
    | none =>
      have hstep : getWidthLoop fields (fuel + 1) c cnt = (c, cnt) := by
        simp only [getWidthLoop, hnf]
      rw [hstep] at hcnt ⊢
      have hempty : liveFields fields c = [] :=
        (getNextField_none_iff fields c).mp hnf
      refine ⟨?_, le_refl c, by rw [hempty]; exact List.Pairwise.nil⟩
      intro f hf hcf
      exfalso
      have : f ∈ liveFields fields c :=
        List.mem_filter.mpr ⟨hf, by simpa using hcf⟩
      rw [hempty] at this
      cases this
    | some f =>
      obtain ⟨hmem, hcf, hmin⟩ := getNextField_some_spec hnf
      have hwf := hw f hmem
      have hstep : getWidthLoop fields (fuel + 1) c cnt =
          getWidthLoop fields fuel (f.column + f.width) (cnt + 1) := by
        simp only [getWidthLoop, hnf]
      rw [hstep] at hcnt ⊢
      have hlt : (liveFields fields (f.column + f.width)).length <
          (liveFields fields c).length := by
        refine filter_length_lt hmem ?_ (by simpa using hcf) (by simp; omega)
        intro x _ hx
        simp only [decide_eq_true_eq] at hx ⊢
        omega
      have hA := getWidthLoop_count_le fields hw fuel (f.column + f.width) (cnt + 1)
      have hlive_eq : (liveFields fields (f.column + f.width)).length + 1 =
          (liveFields fields c).length := by omega
      have hcnt2 : (getWidthLoop fields fuel (f.column + f.width) (cnt + 1)).2 =
          (cnt + 1) + (liveFields fields (f.column + f.width)).length := by omega
      obtain ⟨ih1, ih2, ih3⟩ := ih (f.column + f.width) (cnt + 1) (by omega) hcnt2
      -- the live fields at `c` are exactly those at `f.column + f.width`
      -- plus the consumed field `f`
      have hE : (liveFields fields c).filter
          (fun x => decide (f.column + f.width ≤ x.column)) =
          liveFields fields (f.column + f.width) := by
        unfold liveFields
        rw [List.filter_filter]
        refine List.filter_congr ?_
        intro x _
        by_cases hx : f.column + f.width ≤ x.column
        · have hcx : c ≤ x.column := by omega
          simp [hx, hcx]
        · simp [hx]
      have hDf : f ∈ (liveFields fields c).filter
          (fun x => !(decide (f.column + f.width ≤ x.column))) := by
        refine List.mem_filter.mpr ⟨List.mem_filter.mpr ⟨hmem, by simpa using hcf⟩, ?_⟩
        simp
        omega
      have hpermED := List.filter_append_perm
        (fun x => decide (f.column + f.width ≤ x.column)) (liveFields fields c)
      have hlenD : ((liveFields fields c).filter
          (fun x => !(decide (f.column + f.width ≤ x.column)))).length = 1 := by
        have := hpermED.length_eq
        rw [List.length_append, hE] at this
        omega
      obtain ⟨d, hd⟩ := List.length_eq_one.mp hlenD
      have hdf : d = f := by
        rw [hd] at hDf
        rcases List.mem_cons.mp hDf with h | h
        · exact h.symm
        · cases h
      subst hdf
      have hperm : (liveFields fields c).Perm
          (liveFields fields (d.column + d.width) ++ [d]) := by
        have h2 := hpermED.symm
        rw [hE, hd] at h2
        exact h2
      refine ⟨?_, by omega, ?_⟩
      · intro g hg hcg
        by_cases hgc2 : d.column + d.width ≤ g.column
        · exact ih1 g hg hgc2
        · have hgD : g ∈ (liveFields fields c).filter
              (fun x => !(decide (d.column + d.width ≤ x.column))) := by
            refine List.mem_filter.mpr
              ⟨List.mem_filter.mpr ⟨hg, by simpa using hcg⟩, by simpa using hgc2⟩
          rw [hd] at hgD
          rcases List.mem_cons.mp hgD with h | h
          · rw [h]; exact ih2
          · cases h
      · refine (List.Perm.pairwise_iff (fun h => fdisj_symm h) hperm).mpr ?_
        rw [List.pairwise_append]
        refine ⟨ih3, by simp [List.Pairwise], ?_⟩
        intro a ha b hb
        have hb' : b = d := by
          rcases List.mem_cons.mp hb with h | h
          · exact h
          · cases h
        have haf : d.column + d.width ≤ a.column := by
          simpa using List.of_mem_filter ha
        rw [hb']
        exact Or.inr haf

/-- A successful `getWidth` implies a genuine layout: a nonempty field list
with 1-based columns, every field ending within the derived total width, and
pairwise disjoint column ranges. -/
theorem getWidth_ok_spec {fields : List Field} {W : Nat}
    (hw : ∀ f ∈ fields, 1 ≤ f.width)
    (h : getWidth fields = .ok W) :
    fields ≠ [] ∧
    (∀ f ∈ fields, 1 ≤ f.column ∧ f.column + f.width ≤ W + 1) ∧
    fields.Pairwise fdisj := by
  unfold getWidth at h
  by_cases h0 : (getWidthLoop fields (fields.length + 1) 1 0).2 = 0
  · rw [if_pos h0] at h; cases h
  rw [if_neg h0] at h
  by_cases h1 : (getWidthLoop fields (fields.length + 1) 1 0).2 < fields.length
  · rw [if_pos h1] at h; cases h
  rw [if_neg h1] at h
  have hW : (getWidthLoop fields (fields.length + 1) 1 0).1 - 1 = W := by
    injection h
  have hA := getWidthLoop_count_le fields hw (fields.length + 1) 1 0
  have hlive_le : (liveFields fields 1).length ≤ fields.length :=
    List.length_filter_le _ _
  have hlive_len : (liveFields fields 1).length = fields.length := by omega
  have hcnt : (getWidthLoop fields (fields.length + 1) 1 0).2 =
      0 + (liveFields fields 1).length := by omega
  have hfilter_eq : liveFields fields 1 = fields :=
    (List.filter_sublist fields).eq_of_length hlive_len
  obtain ⟨hc1, hc2, hc3⟩ := getWidthLoop_complete fields hw
    (fields.length + 1) 1 0 (by omega) hcnt
  refine ⟨?_, ?_, by rw [← hfilter_eq]; exact hc3⟩
  · intro hnil
    subst hnil
    simp [getWidthLoop, getNextField] at h0
  · intro f hf
    have hfl : f ∈ liveFields fields 1 := by rw [hfilter_eq]; exact hf
    have hcol : 1 ≤ f.column := by simpa using List.of_mem_filter hfl
    have hend := hc1 f hf hcol
    exact ⟨hcol, by omega⟩

/-! ## Claim C3: layout validation -/

/-- `Except.isOk` as a plain boolean projection. -/
def isOkE {ε α : Type _} : Except ε α → Bool
  | .ok _ => true
  | .error _ => false

/-- A raw field descriptor carrying a `width` and an explicit `column`. -/
def exItemWC (w c : Int) : FieldItem :=
  .fobj ⟨.num (.int w), .num (.int c), .undef, .undef, .undef, .undef, .undef,
    .undef⟩

/-- The claim's gap example as a full options input:
`[{width: 2}, {width: 2, column: 5}]`. -/
def gapInput : OptionsInput := .arrIn [exItemW 2, exItemWC 2 5]

/-- C3 counterexample.  The claim's gap example (widths 2 and 2 with the
second field's column explicitly set to 5) is NOT rejected: `getWidth`
accepts it with total width 6, and the whole option validation succeeds.
`getNextField` only requires each next field's column to be at least the
running column, so a gap merely advances the walk. -/
theorem c3_gap_counterexample :
    getWidth [exField 1 2 (.idx 0), exField 5 2 (.idx 1)] = .ok 6 ∧
    isOkE (parseOptionsBundle gapInput) = true :=
  ⟨rfl, rfl⟩

/-- C3 amended.  Layout validation rejects an empty field list and rejects
any overlap (in particular two fields claiming the same column), but does
NOT reject gaps: every field list with positive widths, 1-based columns and
column-sorted pairwise non-overlapping ranges — contiguous or not — is
accepted, with `totalWidth` equal to the last field's `column + width - 1`. -/
theorem c3_layout_validation_amended :
    getWidth [] = .error "At least one field is required" ∧
    (∀ fs : List Field, fs ≠ [] →
      (∀ f ∈ fs, 1 ≤ f.width) → (∀ f ∈ fs, 1 ≤ f.column) →
      List.Pairwise (fun a b => a.column + a.width ≤ b.column) fs →
      ∃ l, fs.getLast? = some l ∧ getWidth fs = .ok (l.column + l.width - 1)) ∧
    (∀ fs : List Field, (∀ f ∈ fs, 1 ≤ f.width) →
      (∃ (i j : Nat) (hi : i < fs.length) (hj : j < fs.length),
        i ≠ j ∧ fs[i].column = fs[j].column) →
      ∃ e, getWidth fs = .error e) := by
  refine ⟨rfl, ?_, ?_⟩
  · intro fs hne hw hc hsorted
    have hloop := getWidthLoop_sorted fs (fs.length + 1) 1 0 (by omega) hw hc
      hsorted
    cases hl : fs.getLast? with
    | none => exact absurd (List.getLast?_eq_none_iff.mp hl) hne
    | some l =>
      rw [hl] at hloop
      have hloop2 : getWidthLoop fs (fs.length + 1) 1 0 =
          (l.column + l.width, 0 + fs.length) := hloop
      have hlen : 0 < fs.length := List.length_pos.mpr hne
      refine ⟨l, rfl, ?_⟩
      unfold getWidth
      rw [hloop2]
      have h0 : ¬(((l.column + l.width, 0 + fs.length) : Nat × Nat).2 = 0) := by
        show ¬(0 + fs.length = 0)
        omega
      have h1 : ¬(((l.column + l.width, 0 + fs.length) : Nat × Nat).2 <
          fs.length) := by
        show ¬(0 + fs.length < fs.length)
        omega
      rw [if_neg h0, if_neg h1]
  · intro fs hw hdup
    obtain ⟨i, j, hi, hj, hij, hcols⟩ := hdup
    cases hgw : getWidth fs with
    | error e => exact ⟨e, rfl⟩
    | ok W =>
      exfalso
      obtain ⟨-, -, hpair⟩ := getWidth_ok_spec hw hgw
      have hp := List.pairwise_iff_getElem.mp hpair
      have hwi : 1 ≤ fs[i].width := hw _ (List.getElem_mem hi)
      have hwj : 1 ≤ fs[j].width := hw _ (List.getElem_mem hj)
      rcases Nat.lt_trichotomy i j with hlt | heq | hgt
      · have := hp i j hi hj hlt
        unfold fdisj at this
        omega
      · exact hij heq
      · have := hp j i hj hi hgt
        unfold fdisj at this
        omega

/-- C3 witness: the amended theorem applied to the concrete gapped layout
(accepted, total width 6) and to the concrete overlapping layout (two fields
both claiming column 1: rejected). -/
theorem c3_layout_validation_amended_witness :
    (∃ l, ([exField 1 2 (.idx 0), exField 5 2 (.idx 1)]).getLast? = some l ∧
      getWidth [exField 1 2 (.idx 0), exField 5 2 (.idx 1)] =
        .ok (l.column + l.width - 1)) ∧
    (∃ e, getWidth [exField 1 1 (.idx 0), exField 1 1 (.idx 1)] = .error e) :=
  ⟨c3_layout_validation_amended.2.1 [exField 1 2 (.idx 0), exField 5 2 (.idx 1)]
      (by simp) (by decide) (by decide) (by decide),
    c3_layout_validation_amended.2.2 [exField 1 1 (.idx 0), exField 1 1 (.idx 1)]
      (by decide) ⟨0, 1, by decide, by decide, by omega, by decide⟩⟩

/-! ## Trim behaviour (claim C7) -/

theorem trimStart_eq_dropWhile (v : List Char) (p : Char) :
    trimStart v p = v.dropWhile (fun c => c == p) := by
  induction v with
  | nil => rfl
  | cons c rest ih =>
    simp only [trimStart, List.dropWhile_cons]
    by_cases h : c = p <;> simp [h, ih]

theorem trimEnd_eq (v : List Char) (p : Char) :
    trimEnd v p = (v.reverse.dropWhile (fun c => c == p)).reverse := by
  simp [trimEnd, trimStart_eq_dropWhile]

/-- C7.  Decoded field slices are trimmed per the field's trim mode:
`'left'` strips leading pad characters only, `'right'` strips trailing pad
characters only, `true` (the default for an absent trim option) strips both
sides, `false` strips nothing, and `'auto'` strips leading pad characters on
a right-aligned field and trailing pad characters on a left-aligned field. -/
theorem c7_trim_modes : ∀ (v : List Char) (p : Char) (a : Align),
    trimString v p .left a = v.dropWhile (fun c => c == p) ∧
    trimString v p .right a = (v.reverse.dropWhile (fun c => c == p)).reverse ∧
    trimString v p .tru a =
      ((v.dropWhile (fun c => c == p)).reverse.dropWhile (fun c => c == p)).reverse ∧
    trimString v p .fls a = v ∧
    trimString v p .auto a =
      (if a = .right then v.dropWhile (fun c => c == p)
       else (v.reverse.dropWhile (fun c => c == p)).reverse) ∧
    parseTrimOption .undef .tru = .ok .tru := by
  intro v p a
  refine ⟨?_, ?_, ?_, rfl, ?_, rfl⟩
  · simp [trimString, trimStart_eq_dropWhile]
  · simp [trimString, trimEnd_eq]
  · simp [trimString, trim, trimEnd_eq, trimStart_eq_dropWhile]
  · cases a <;> simp [trimString, trimStart_eq_dropWhile, trimEnd_eq]

/-! ## Encode-side coercion (claims C5 and C6) -/

/-- The value a field hands to `stringifyValue`: the record slot after the
optional `stringify` hook. -/
def hookedValue (obj : Record) (field : Field) : CellVal :=
  match field.stringify with
  | some f => f (getProp obj field.property)
  | none => getProp obj field.property

theorem stringifyField_eq (obj : Record) (field : Field)
    (options : ParsedOptions) (line : Int) :
    stringifyField obj field options line =
      match stringifyValue (hookedValue obj field) options.encoding with
      | .str s =>
        if field.width < s.length then
          .error ⟨"FIELD_VALUE_OVERFLOW", line, some field.column,
            some field.width, some (.str s)⟩
        else if field.align = .right then
          .ok (padStartJs s field.width field.pad)
        else
          .ok (padEndJs s field.width field.pad)
      | v =>
        .error ⟨"EXPECTED_STRING_VALUE", line, some field.column,
          some field.width, some v⟩ := by
  rfl

/-- C6.  The coercion of a record value to a display string: buffers decode
under the configured encoding, `null`/`undefined` become the empty string,
booleans become `"1"`/`"0"`, numbers and bigints their base-10 string, a
non-null object is unwrapped via `valueOf()` first, and a value still not a
string after coercion makes the field encoding fail with
`EXPECTED_STRING_VALUE` carrying the line and column. -/
theorem c6_value_coercion :
    (∀ (f : String → List Char) (enc : String),
      stringifyValue (.buffer f) enc = .str (f enc)) ∧
    (∀ enc : String, stringifyValue .null enc = .str [] ∧
      stringifyValue .undef enc = .str []) ∧
    (∀ (b : Bool) (enc : String),
      stringifyValue (.bool b) enc = .str (if b then ['1'] else ['0'])) ∧
    (∀ (i : Int) (enc : String),
      stringifyValue (.num i) enc = .str (toString i).toList ∧
      stringifyValue (.bigint i) enc = .str (toString i).toList) ∧
    (∀ (v : CellVal) (enc : String),
      stringifyValue (.obj v) enc = stringifyPrimitiveValue v) ∧
    (∀ (obj : Record) (field : Field) (options : ParsedOptions) (line : Int)
      (w : CellVal),
      stringifyValue (hookedValue obj field) options.encoding = w →
      (∀ s, w ≠ CellVal.str s) →
      stringifyField obj field options line =
        .error ⟨"EXPECTED_STRING_VALUE", line, some field.column,
          some field.width, some w⟩) := by
  refine ⟨fun _ _ => rfl, fun _ => ⟨rfl, rfl⟩, fun b _ => by cases b <;> rfl,
    fun _ _ => ⟨rfl, rfl⟩, fun _ _ => rfl, ?_⟩
  intro obj field options line w hw hns
  rw [stringifyField_eq, hw]
  cases w with
  | str s => exact absurd rfl (hns s)
  | undef => rfl
  | null => rfl
  | bool b => rfl
  | num i => rfl
  | bigint i => rfl
  | buffer f => rfl
  | obj v => rfl

/-- C6 witness: a record slot holding an object whose `valueOf()` yields
another object coerces to a non-string, and encoding that field fails with
`EXPECTED_STRING_VALUE` at line 7, column 1. -/
theorem c6_value_coercion_witness :
    stringifyField (.arr [.obj (.obj .null)]) (exField 1 2 (.idx 0))
      (exOptions exLayout1 1 false) 7 =
      .error ⟨"EXPECTED_STRING_VALUE", 7, some 1, some 2,
        some (.obj .null)⟩ :=
  c6_value_coercion.2.2.2.2.2 (.arr [.obj (.obj .null)])
    (exField 1 2 (.idx 0)) (exOptions exLayout1 1 false) 7 (.obj .null) rfl
    (fun s h => by cases h)

/-- C5.  Encoding a field value whose coerced display string exceeds the
field width fails with `FIELD_VALUE_OVERFLOW` carrying line, column, width
and value (never a silent truncation); a coerced string at most the width
wide encodes successfully, padded per the alignment.  In particular the
number `123` overflows a width-2 field and encodes as `"123"` at width 3. -/
theorem c5_overflow :
    (∀ (obj : Record) (field : Field) (options : ParsedOptions) (line : Int)
      (s : List Char),
      stringifyValue (hookedValue obj field) options.encoding = .str s →
      field.width < s.length →
      stringifyField obj field options line =
        .error ⟨"FIELD_VALUE_OVERFLOW", line, some field.column,
          some field.width, some (.str s)⟩) ∧
    (∀ (obj : Record) (field : Field) (options : ParsedOptions) (line : Int)
      (s : List Char),
      stringifyValue (hookedValue obj field) options.encoding = .str s →
      s.length ≤ field.width →
      stringifyField obj field options line =
        .ok (if field.align = .right then padStartJs s field.width field.pad
          else padEndJs s field.width field.pad)) ∧
    stringifyField (.arr [.num 123]) (exField 1 2 (.idx 0))
      (exOptions exLayout1 1 false) 1 =
      .error ⟨"FIELD_VALUE_OVERFLOW", 1, some 1, some 2,
        some (.str ['1', '2', '3'])⟩ ∧
    stringifyField (.arr [.num 123]) (exField 1 3 (.idx 0))
      (exOptions exLayout1 1 false) 1 = .ok ['1', '2', '3'] := by
  refine ⟨?_, ?_, rfl, rfl⟩
  · intro obj field options line s hs hlt
    rw [stringifyField_eq, hs]
    simp [hlt]
  · intro obj field options line s hs hle
    rw [stringifyField_eq, hs]
    simp only [Nat.not_lt.mpr hle, if_false]
    split <;> rfl

/-- C5 witness: instantiating the overflow and fit branches at the number
`123` against widths 2 and 3. -/
theorem c5_overflow_witness :
    stringifyField (.arr [.num 123]) (exField 1 2 (.idx 0))
      (exOptions exLayout1 1 false) 1 =
      .error ⟨"FIELD_VALUE_OVERFLOW", 1, some 1, some 2,
        some (.str ['1', '2', '3'])⟩ ∧
    stringifyField (.arr [.num 123]) (exField 1 3 (.idx 0))
      (exOptions exLayout1 1 false) 1 =
      .ok (if (exField 1 3 (.idx 0)).align = .right then
        padStartJs ['1', '2', '3'] 3 ' ' else padEndJs ['1', '2', '3'] 3 ' ') :=
  ⟨c5_overflow.1 (.arr [.num 123]) (exField 1 2 (.idx 0))
      (exOptions exLayout1 1 false) 1 ['1', '2', '3'] rfl (by decide),
    c5_overflow.2.1 (.arr [.num 123]) (exField 1 3 (.idx 0))
      (exOptions exLayout1 1 false) 1 ['1', '2', '3'] rfl (by decide)⟩

/-! ## Decode length checks (claim C4) -/

/-- C4.  Decoding a line longer than `totalWidth` with
`allowLongerLines = false` fails with `UNEXPECTED_LINE_LENGTH`, as does a
line shorter than `totalWidth` with `allowShorterLines = false`; the parsed
defaults are `allowLongerLines = true`, `allowShorterLines = false`; and
decoding `"ab"` against the default width-4 two-field layout fails by
default but succeeds as `["ab", ""]` with `allowShorterLines = true`. -/
theorem c4_line_length :
    (∀ (text : List Char) (options : ParsedOptions) (line : Int),
      options.width < text.length → options.allowLongerLines = false →
      parseFields text options line =
        .error ⟨"UNEXPECTED_LINE_LENGTH", line, none, none, some (.str text)⟩) ∧
    (∀ (text : List Char) (options : ParsedOptions) (line : Int),
      text.length < options.width → options.allowShorterLines = false →
      parseFields text options line =
        .error ⟨"UNEXPECTED_LINE_LENGTH", line, none, none, some (.str text)⟩) ∧
    (∃ o, parseOptionsBundle exDefaultsInput = .ok o ∧
      o.allowLongerLines = true ∧ o.allowShorterLines = false ∧ o.width = 4) ∧
    parseFields ['a', 'b'] (exOptions exLayout22 4 false) 1 =
      .error ⟨"UNEXPECTED_LINE_LENGTH", 1, none, none,
        some (.str ['a', 'b'])⟩ ∧
    parseFields ['a', 'b'] (exOptions exLayout22 4 true) 1 =
      .ok (.arr [.str ['a', 'b'], .str []]) := by
  refine ⟨?_, ?_, ⟨_, rfl, rfl, rfl, rfl⟩, rfl, rfl⟩
  · intro text options line hlen hallow
    simp [parseFields, hlen, hallow]
  · intro text options line hlen hallow
    have : ¬(options.width < text.length ∧ !options.allowLongerLines) := by
      intro h
      exact absurd (Nat.lt_trans hlen h.1) (Nat.lt_irrefl _)
    simp [parseFields, this, hlen, hallow]

/-- C4 witness: the two length-check branches applied to concrete lines
against the width-4 layout (the first with `allowLongerLines` turned off). -/
theorem c4_line_length_witness :
    parseFields ['a', 'b', 'c', 'd', 'e']
      { exOptions exLayout22 4 false with allowLongerLines := false } 3 =
      .error ⟨"UNEXPECTED_LINE_LENGTH", 3, none, none,
        some (.str ['a', 'b', 'c', 'd', 'e'])⟩ ∧
    parseFields ['a', 'b'] (exOptions exLayout22 4 false) 3 =
      .error ⟨"UNEXPECTED_LINE_LENGTH", 3, none, none,
        some (.str ['a', 'b'])⟩ := by
  constructor
  · have h := c4_line_length.1 ['a', 'b', 'c', 'd', 'e']
      { exOptions exLayout22 4 false with allowLongerLines := false } 3
      (by decide) (by decide)
    simpa using h
  · have h := c4_line_length.2.1 ['a', 'b']
      (exOptions exLayout22 4 false) 3 (by decide) (by decide)
    simpa using h

/-! ## Round trip (claim C1): slice and splice lemmas -/

/-- The width-`len` slice of a text starting at 0-based position `a`. -/
def sliceL (t : List Char) (a len : Nat) : List Char :=
  (t.drop a).take len

theorem jsSubstring_eq_slice (t : List Char) (a w : Nat) :
    jsSubstring t a (a + w) = sliceL t a w := by
  unfold jsSubstring sliceL
  rw [Nat.add_sub_cancel_left]

theorem replaceWith_length {t v : List Char} {a : Nat}
    (h : a + v.length ≤ t.length) : (replaceWith t v a).length = t.length := by
  unfold replaceWith
  simp only [List.length_append, List.length_take, List.length_drop]
  omega

theorem slice_replaceWith_self {t v : List Char} {a : Nat}
    (h : a + v.length ≤ t.length) : sliceL (replaceWith t v a) a v.length = v := by
  unfold replaceWith sliceL
  have h1 : (t.take a).length = a := by
    rw [List.length_take]
    omega
  rw [List.append_assoc, List.drop_append_eq_append_drop, h1,
    List.drop_eq_nil_of_le (le_of_eq h1), Nat.sub_self]
  simp only [List.drop_zero, List.nil_append]
  exact List.take_left v _

theorem slice_replaceWith_before {t v : List Char} {a b len : Nat}
    (hub : a + v.length ≤ t.length) (hdisj : b + len ≤ a) :
    sliceL (replaceWith t v a) b len = sliceL t b len := by
  unfold replaceWith sliceL
  have h1 : (t.take a).length = a := by
    rw [List.length_take]
    omega
  rw [List.append_assoc, List.drop_append_eq_append_drop, h1,
    List.take_append_eq_append_take]
  have h2 : (List.drop b (t.take a)).length = a - b := by
    rw [List.length_drop, h1]
  rw [h2, Nat.sub_eq_zero_of_le (by omega : len ≤ a - b), List.take_zero,
    List.append_nil, List.drop_take]
  rw [List.take_take, Nat.min_eq_left (by omega : len ≤ a - b)]

theorem slice_replaceWith_after {t v : List Char} {a b len : Nat}
    (hub : a + v.length ≤ t.length) (hdisj : a + v.length ≤ b) :
    sliceL (replaceWith t v a) b len = sliceL t b len := by
  unfold replaceWith sliceL
  have h1 : (t.take a).length = a := by
    rw [List.length_take]
    omega
  rw [List.drop_append_eq_append_drop]
  have h2 : (t.take a ++ v).length = a + v.length := by
    rw [List.length_append, h1]
  rw [h2, List.drop_eq_nil_of_le (by omega), List.nil_append, List.drop_drop]
  rw [Nat.add_sub_cancel' hdisj]

theorem padStartJs_length {s : List Char} {w : Nat} {p : Char}
    (h : s.length ≤ w) : (padStartJs s w p).length = w := by
  simp only [padStartJs, List.length_append, List.length_replicate]
  omega

theorem padEndJs_length {s : List Char} {w : Nat} {p : Char}
    (h : s.length ≤ w) : (padEndJs s w p).length = w := by
  simp only [padEndJs, List.length_append, List.length_replicate]
  omega

theorem trimStart_replicate_append (k : Nat) (p : Char) (t : List Char) :
    trimStart (List.replicate k p ++ t) p = trimStart t p := by
  induction k with
  | zero => simp
  | succ k ih =>
    rw [List.replicate_succ]
    simpa [trimStart] using ih

theorem trimStart_of_head_ne {t : List Char} {p : Char}
    (h : t.head? ≠ some p) : trimStart t p = t := by
  cases t with
  | nil => rfl
  | cons c rest =>
    have hc : c ≠ p := by
      intro hcp
      exact h (by simp [hcp])
    simp [trimStart, hc]

/-- Stripping both ends recovers a value with no pad character at either end
from its right-padded rendering. -/
theorem trim_padEnd {s : List Char} {p : Char} (k : Nat)
    (hh : s.head? ≠ some p) (hl : s.getLast? ≠ some p) :
    trim (s ++ List.replicate k p) p = s := by
  cases s with
  | nil =>
    unfold trim
    rw [List.nil_append]
    have h1 : trimStart (List.replicate k p) p = [] := by
      have := trimStart_replicate_append k p []
      simpa using this
    rw [h1]
    rfl
  | cons c rest =>
    unfold trim
    rw [trimStart_of_head_ne (by simpa using hh)]
    unfold trimEnd
    rw [List.reverse_append, List.reverse_replicate,
      trimStart_replicate_append, trimStart_of_head_ne
        (by rw [List.head?_reverse]; exact hl),
      List.reverse_reverse]

/-- Stripping both ends recovers a value with no pad character at either end
from its left-padded rendering. -/
theorem trim_padStart {s : List Char} {p : Char} (k : Nat)
    (hh : s.head? ≠ some p) (hl : s.getLast? ≠ some p) :
    trim (List.replicate k p ++ s) p = s := by
  unfold trim
  rw [trimStart_replicate_append, trimStart_of_head_ne hh]
  unfold trimEnd
  rw [trimStart_of_head_ne (by rw [List.head?_reverse]; exact hl),
    List.reverse_reverse]

/-! ## Round trip (claim C1): encoding and decoding -/

theorem exBind_ok {ε α β : Type _} (a : α) (f : α → Except ε β) :
    (Except.ok a >>= f : Except ε β) = f a := rfl

theorem exBind_error {ε α β : Type _} (e : ε) (f : α → Except ε β) :
    ((Except.error e : Except ε α) >>= f : Except ε β) = .error e := rfl

theorem exBind_pure {ε α β : Type _} (a : α) (f : α → Except ε β) :
    ((pure a : Except ε α) >>= f : Except ε β) = f a := rfl

/-- A hook-free positional field encodes a fitting string slot as its padded
rendering. -/
theorem stringifyField_padded {rec : List (List Char)} {field : Field}
    {options : ParsedOptions} {line : Int} {k : Nat}
    (hk : k < rec.length)
    (hprop : field.property = .idx k)
    (hhook : field.stringify = none)
    (hfit : (rec[k]).length ≤ field.width) :
    stringifyField (.arr (rec.map CellVal.str)) field options line =
      .ok (if field.align = .right
        then padStartJs rec[k] field.width field.pad
        else padEndJs rec[k] field.width field.pad) := by
  rw [stringifyField_eq]
  have hv : hookedValue (.arr (rec.map CellVal.str)) field = .str rec[k] := by
    unfold hookedValue
    rw [hhook, hprop]
    show (rec.map CellVal.str).getD k .undef = _
    rw [List.getD_eq_getElem _ _ (by simpa using hk), List.getElem_map]
  rw [hv]
  show (if field.width < (rec[k]).length then _ else _) = _
  rw [if_neg (Nat.not_lt.mpr hfit)]
  split <;> rfl

/-- `parseField` without a cast hook is slice-then-trim. -/
theorem parseField_no_cast {text : List Char} {field : Field} {line : Int}
    (h : field.cast = none) :
    parseField text field line =
      .str (trimString
        (jsSubstring text (field.column - 1) (field.column - 1 + field.width))
        field.pad field.trim field.align) := by
  simp [parseField, h]

/-- The splice loop of `stringifyFields` over the field suffix from position
`k`: it succeeds, preserves the text length, leaves regions disjoint from
all remaining fields untouched, and writes each remaining field's padded
rendering into its column range. -/
theorem encode_fold (options : ParsedOptions) (rec : List (List Char))
    (line : Int)
    (hlen : options.fields.length = rec.length)
    (hprop : ∀ i (hi : i < options.fields.length),
      (options.fields[i]).property = .idx i)
    (hhook : ∀ i (hi : i < options.fields.length),
      (options.fields[i]).stringify = none)
    (hcolpos : ∀ i (hi : i < options.fields.length),
      1 ≤ (options.fields[i]).column)
    (hbound : ∀ i (hi : i < options.fields.length),
      (options.fields[i]).column - 1 + (options.fields[i]).width ≤ options.width)
    (hfit : ∀ i (hi : i < options.fields.length) (hri : i < rec.length),
      (rec[i]).length ≤ (options.fields[i]).width)
    (hdisj : ∀ i j (hi : i < options.fields.length)
      (hj : j < options.fields.length), i ≠ j →
      fdisj (options.fields[i]) (options.fields[j])) :
    ∀ (fs2 : List Field) (k : Nat), options.fields.drop k = fs2 →
      ∀ t : List Char, t.length = options.width →
      ∃ L, (List.foldlM (fun text field => do
          let v ← stringifyField (.arr (rec.map CellVal.str)) field options line
          pure (replaceWith text v (field.column - 1))) t fs2) = .ok L ∧
        L.length = options.width ∧
        (∀ a len, (∀ j (hj : j < options.fields.length), k ≤ j →
            a + len ≤ (options.fields[j]).column - 1 ∨
            (options.fields[j]).column - 1 + (options.fields[j]).width ≤ a) →
          sliceL L a len = sliceL t a len) ∧
        (∀ j (hj : j < options.fields.length) (hrj : j < rec.length), k ≤ j →
          sliceL L ((options.fields[j]).column - 1) ((options.fields[j]).width) =
            (if (options.fields[j]).align = .right
             then padStartJs rec[j] (options.fields[j]).width
               (options.fields[j]).pad
             else padEndJs rec[j] (options.fields[j]).width
               (options.fields[j]).pad)) := by
  intro fs2
  induction fs2 with
  | nil =>
    intro k hk t ht
    refine ⟨t, rfl, ht, fun a len _ => rfl, ?_⟩
    intro j hj hrj hkj
    exfalso
    have hle : options.fields.length ≤ k := by
      by_contra h
      rw [List.drop_eq_getElem_cons (Nat.lt_of_not_le h)] at hk
      cases hk
    omega
  | cons f fs2' ih =>
    intro k hk t ht
    have hlen_k : k < options.fields.length := by
      by_contra h
      rw [List.drop_eq_nil_of_le (Nat.le_of_not_lt h)] at hk
      cases hk
    have hdropk := List.drop_eq_getElem_cons hlen_k
    rw [hk] at hdropk
    injection hdropk with hf hfs2'
    subst hf
    have hrk : k < rec.length := by omega
    have hsf := @stringifyField_padded _ _ options line _ hrk
      (hprop k hlen_k) (hhook k hlen_k) (hfit k hlen_k hrk)
    have hPlen : (if (options.fields[k]).align = .right
        then padStartJs rec[k] (options.fields[k]).width (options.fields[k]).pad
        else padEndJs rec[k] (options.fields[k]).width
          (options.fields[k]).pad).length = (options.fields[k]).width := by
      split
      · exact padStartJs_length (hfit k hlen_k hrk)
      · exact padEndJs_length (hfit k hlen_k hrk)
    have hub : ((options.fields[k]).column - 1) +
        (if (options.fields[k]).align = .right
         then padStartJs rec[k] (options.fields[k]).width (options.fields[k]).pad
         else padEndJs rec[k] (options.fields[k]).width
           (options.fields[k]).pad).length ≤ t.length := by
      rw [hPlen, ht]
      exact hbound k hlen_k
    have ht' : (replaceWith t
        (if (options.fields[k]).align = .right
         then padStartJs rec[k] (options.fields[k]).width (options.fields[k]).pad
         else padEndJs rec[k] (options.fields[k]).width (options.fields[k]).pad)
        ((options.fields[k]).column - 1)).length = options.width := by
      rw [replaceWith_length hub, ht]
    obtain ⟨L, hL, hLlen, hpres, hflds⟩ := ih (k + 1) hfs2'.symm _ ht'
    refine ⟨L, ?_, hLlen, ?_, ?_⟩
    · simp only [List.foldlM_cons]
      rw [hsf]
      simp only [exBind_ok, exBind_pure]
      exact hL
    · intro a len hcond
      have h1 := hpres a len (fun j hj hkj => hcond j hj (by omega))
      rw [h1]
      rcases hcond k hlen_k (le_refl k) with hbefore | hafter
      · exact slice_replaceWith_before hub hbefore
      · refine slice_replaceWith_after hub ?_
        rw [hPlen]
        exact hafter
    · intro j hj hrj hkj
      by_cases hjk : j = k
      · subst hjk
        have hpre := hpres ((options.fields[j]).column - 1)
          ((options.fields[j]).width)
          (fun j' hj' hk1j' => by
            have hne : j ≠ j' := by omega
            have hd := hdisj j j' hj hj' hne
            have hc1 := hcolpos j hj
            have hc2 := hcolpos j' hj'
            unfold fdisj at hd
            omega)
        have hself := slice_replaceWith_self hub
        rw [hPlen] at hself
        rw [hpre]
        exact hself
      · exact hflds j hj hrj (by omega)

/-- C1.  For every validated layout with positional output shape, default
(hook-free, trim-both) fields, and every record of strings that fit their
fields' widths and carry no pad character at either end (the sides the
default trim strips), decoding the encoded line recovers the record:
`parseFields (stringifyFields record) = record`. -/
theorem c1_round_trip :
    ∀ (options : ParsedOptions) (rec : List (List Char)) (line line2 : Int),
      options.output = .array →
      (∀ f ∈ options.fields, 1 ≤ f.width) →
      getWidth options.fields = .ok options.width →
      options.fields.length = rec.length →
      (∀ i (hi : i < options.fields.length),
        (options.fields[i]).property = .idx i ∧
        (options.fields[i]).cast = none ∧
        (options.fields[i]).stringify = none ∧
        (options.fields[i]).trim = .tru) →
      (∀ i (hi : i < options.fields.length) (hri : i < rec.length),
        (rec[i]).length ≤ (options.fields[i]).width ∧
        (rec[i]).head? ≠ some ((options.fields[i]).pad) ∧
        (rec[i]).getLast? ≠ some ((options.fields[i]).pad)) →
      ∃ L, stringifyFields (.arr (rec.map CellVal.str)) options line = .ok L ∧
        parseFields L options line2 = .ok (.arr (rec.map CellVal.str)) := by
  intro options rec line line2 hout hw hgw hlen hfield hrec
  obtain ⟨hne, hbounds, hpair⟩ := getWidth_ok_spec hw hgw
  have hdisj : ∀ i j (hi : i < options.fields.length)
      (hj : j < options.fields.length), i ≠ j →
      fdisj (options.fields[i]) (options.fields[j]) := by
    intro i j hi hj hij
    have hp := List.pairwise_iff_getElem.mp hpair
    rcases Nat.lt_trichotomy i j with h | h | h
    · exact hp i j hi hj h
    · exact absurd h hij
    · exact fdisj_symm (hp j i hj hi h)
  have hcolpos : ∀ i (hi : i < options.fields.length),
      1 ≤ (options.fields[i]).column :=
    fun i hi => (hbounds _ (List.getElem_mem hi)).1
  have hbound2 : ∀ i (hi : i < options.fields.length),
      (options.fields[i]).column - 1 + (options.fields[i]).width ≤
        options.width := by
    intro i hi
    have h1 := (hbounds _ (List.getElem_mem hi)).2
    have h2 := hcolpos i hi
    omega
  obtain ⟨L, hfold, hLlen, -, hslices⟩ := encode_fold options rec line hlen
    (fun i hi => (hfield i hi).1) (fun i hi => (hfield i hi).2.2.1)
    hcolpos hbound2 (fun i hi hri => (hrec i hi hri).1) hdisj
    options.fields 0 rfl (List.replicate options.width options.pad) (by simp)
  refine ⟨L, hfold, ?_⟩
  unfold parseFields
  rw [if_neg (by simp [hLlen]), if_neg (by simp [hLlen]),
    if_neg (by rw [hout]; simp)]
  have hmap : options.fields.map (fun field => parseField L field line2) =
      rec.map CellVal.str := by
    refine List.ext_getElem (by simp [hlen]) ?_
    intro n h1 h2
    have hn : n < options.fields.length := by simpa using h1
    have hrn : n < rec.length := by simpa using h2
    rw [List.getElem_map, List.getElem_map]
    rw [parseField_no_cast (hfield n hn).2.1, (hfield n hn).2.2.2,
      jsSubstring_eq_slice, hslices n hn hrn (Nat.zero_le n)]
    show CellVal.str (trim _ _) = _
    obtain ⟨hfit, hh, hl⟩ := hrec n hn hrn
    by_cases ha : (options.fields[n]).align = .right
    · rw [if_pos ha]
      show CellVal.str (trim (List.replicate _ _ ++ rec[n]) _) = _
      rw [trim_padStart _ hh hl]
    · rw [if_neg ha]
      show CellVal.str (trim (rec[n] ++ List.replicate _ _) _) = _
      rw [trim_padEnd _ hh hl]
  rw [hmap]

/-- C1 witness: the concrete two-field width-4 layout round-trips the record
`["ab", "1"]`. -/
theorem c1_round_trip_witness :
    ∃ L, stringifyFields
        (.arr ([['a', 'b'], ['1']].map CellVal.str))
        (exOptions exLayout22 4 false) 1 = .ok L ∧
      parseFields L (exOptions exLayout22 4 false) 1 =
        .ok (.arr ([['a', 'b'], ['1']].map CellVal.str)) :=
  c1_round_trip (exOptions exLayout22 4 false) [['a', 'b'], ['1']] 1 1 rfl
    (by decide) rfl rfl
    (by
      intro i hi
      have h2 : i < 2 := hi
      interval_cases i
      · exact ⟨rfl, rfl, rfl, rfl⟩
      · exact ⟨rfl, rfl, rfl, rfl⟩)
    (by
      intro i hi hri
      have h2 : i < 2 := hi
      interval_cases i
      · refine ⟨?_, ?_, ?_⟩ <;> (simp [exOptions, exLayout22, exField]; try decide)
      · refine ⟨?_, ?_, ?_⟩ <;> (simp [exOptions, exLayout22, exField]; try decide))

/-! ## End-of-line detection (claim C9) -/

/-- C9 counterexample.  The claim reads the detection priority as: `\r\n`
anywhere, else `\n` (anywhere), else a `\r` followed by more content.  On
`"x\ry\n"` there is no `\r\n` and a `\n` is present, so the claimed priority
demands `\n`; the code inspects the FIRST line-break character, a `\r`
followed by more content, and locks in `\r` instead. -/
theorem c9_detection_counterexample :
    findSep ['\r', '\n'] "x\ry\n".toList = none ∧
    '\n' ∈ "x\ry\n".toList ∧
    guessEndOfLine "x\ry\n".toList = some ['\r'] := by
  refine ⟨by decide, by decide, by decide⟩

/-- C9 amended.  Detection prefers a `\r\n` occurring anywhere; otherwise it
inspects the first line-break character of the buffer (not any later one): a
first `\n` locks in `\n`, a first `\r` locks in `\r` only when more content
follows it, and a `\r` at the very end of the buffer (or a break-free buffer)
leaves the convention undetected.  Once the session's `eol` is nonempty it is
never re-derived by a later `write`, and a successful detection stores the
guessed value. -/
theorem c9_detection_amended :
    (∀ text : List Char, (findSep ['\r', '\n'] text).isSome →
      guessEndOfLine text = some ['\r', '\n']) ∧
    (∀ (text : List Char) (i : Nat), findSep ['\r', '\n'] text = none →
      firstBreak text = some (i, '\n') → guessEndOfLine text = some ['\n']) ∧
    (∀ (text : List Char) (i : Nat), findSep ['\r', '\n'] text = none →
      firstBreak text = some (i, '\r') → i + 1 < text.length →
      guessEndOfLine text = some ['\r']) ∧
    (∀ (text : List Char) (i : Nat), findSep ['\r', '\n'] text = none →
      firstBreak text = some (i, '\r') → ¬(i + 1 < text.length) →
      guessEndOfLine text = none) ∧
    (∀ text : List Char, findSep ['\r', '\n'] text = none →
      firstBreak text = none → guessEndOfLine text = none) ∧
    (∀ (options : ParsedOptions) (s : PState) (input : List Char),
      s.eolCur ≠ [] → ((writeStep options s input).2).eolCur = s.eolCur) ∧
    (∀ (options : ParsedOptions) (s : PState) (input : List Char)
      (e : List Char), s.eolCur = [] →
      guessEndOfLine (s.text ++ input) = some e →
      ((writeStep options s input).2).eolCur = e) := by
  refine ⟨?_, ?_, ?_, ?_, ?_, ?_, ?_⟩
  · intro text h
    simp [guessEndOfLine, h]
  · intro text i hno hfb
    simp [guessEndOfLine, hno, hfb]
  · intro text i hno hfb hlen
    simp [guessEndOfLine, hno, hfb, hlen]
  · intro text i hno hfb hlen
    simp [guessEndOfLine, hno, hfb, hlen]
  · intro text hno hfb
    simp [guessEndOfLine, hno, hfb]
  · intro options s input hne
    unfold writeStep
    simp only [if_neg hne]
  · intro options s input e h0 hg
    unfold writeStep
    simp only [if_pos h0, hg]
    have hne : e ≠ [] := by
      intro he
      subst he
      unfold guessEndOfLine at hg
      split at hg
      · simp at hg
      · split at hg
        · split at hg
          · simp at hg
          · split at hg
            · simp at hg
            · simp at hg
        · simp at hg
    simp only [if_neg hne]

/-- C9 witness for the amended theorem: locking on a state that already
detected `\n` (a later `\r\n` chunk does not re-derive), and detection of
`\r\n` on a fresh state. -/
theorem c9_detection_amended_witness :
    ((writeStep (exOptions exLayout1 1 false)
        ⟨['\n'], [], 3, 2⟩ "x\r\ny\r\n".toList).2).eolCur = ['\n'] ∧
    ((writeStep (exOptions exLayout1 1 false)
        ⟨[], [], 1, 0⟩ "ab\r\ncd".toList).2).eolCur = ['\r', '\n'] :=
  ⟨c9_detection_amended.2.2.2.2.2.1 (exOptions exLayout1 1 false)
      ⟨['\n'], [], 3, 2⟩ "x\r\ny\r\n".toList (by decide),
    c9_detection_amended.2.2.2.2.2.2 (exOptions exLayout1 1 false)
      ⟨[], [], 1, 0⟩ "ab\r\ncd".toList ['\r', '\n'] rfl (by decide)⟩

/-! ## Chunk-splitting equivalence (claim C2): splitting lemmas -/

theorem findSep_some_le {sep : List Char} :
    ∀ {s : List Char} {pr : List Char × List Char},
      findSep sep s = some pr → sep.length ≤ s.length := by
  intro s
  induction s with
  | nil => intro pr h; simp [findSep] at h
  | cons c rest ih =>
    intro pr h
    unfold findSep at h
    by_cases hp : sep.isPrefixOf (c :: rest)
    · exact (List.isPrefixOf_iff_prefix.mp hp).length_le
    · simp only [hp, if_neg, if_false] at h
      match hfind : findSep sep rest with
      | some pr' =>
        have := ih hfind
        simp only [List.length_cons]
        omega
      | none => rw [hfind] at h; exact absurd h (by simp)

theorem findSep_some_append {sep : List Char} (Y : List Char) :
    ∀ {X pre post : List Char}, findSep sep X = some (pre, post) →
      findSep sep (X ++ Y) = some (pre, post ++ Y) := by
  intro X
  induction X with
  | nil => intro pre post h; simp [findSep] at h
  | cons c rest ih =>
    intro pre post h
    unfold findSep at h
    rw [List.cons_append]
    unfold findSep
    by_cases hp : sep.isPrefixOf (c :: rest)
    · simp only [hp, if_pos] at h
      obtain ⟨h1, h2⟩ := Prod.mk.injEq .. ▸ (Option.some.injEq .. ▸ h)
      subst h1
      subst h2
      have hpre : sep <+: (c :: rest) := List.isPrefixOf_iff_prefix.mp hp
      have hp2 : sep.isPrefixOf (c :: (rest ++ Y)) :=
        List.isPrefixOf_iff_prefix.mpr (hpre.trans (List.prefix_append _ Y))
      rw [if_pos hp2]
      have hle : sep.length ≤ (c :: rest).length := hpre.length_le
      have hdrop : (c :: (rest ++ Y)).drop sep.length =
          (c :: rest).drop sep.length ++ Y := by
        rw [show c :: (rest ++ Y) = (c :: rest) ++ Y from rfl,
          List.drop_append_eq_append_drop, Nat.sub_eq_zero_of_le hle,
          List.drop_zero]
      rw [hdrop]
    · simp only [hp, if_neg, if_false] at h
      match hfind : findSep sep rest with
      | some (pre', post') =>
        rw [hfind] at h
        obtain ⟨h1, h2⟩ := Prod.mk.injEq .. ▸ (Option.some.injEq .. ▸ h)
        subst h1
        subst h2
        have hle : sep.length ≤ rest.length := findSep_some_le hfind
        have hp2 : ¬ sep.isPrefixOf (c :: (rest ++ Y)) := by
          intro hcon
          apply hp
          have hpre2 := List.isPrefixOf_iff_prefix.mp hcon
          rw [List.prefix_iff_eq_take] at hpre2
          rw [show c :: (rest ++ Y) = (c :: rest) ++ Y from rfl,
            List.take_append_of_le_length (by simp; omega)] at hpre2
          rw [List.isPrefixOf_iff_prefix, List.prefix_iff_eq_take]
          exact hpre2
        rw [if_neg hp2, ih hfind]
      | none => rw [hfind] at h; exact absurd h (by simp)

theorem splitOnSeq_ne_nil (sep s : List Char) : splitOnSeq sep s ≠ [] := by
  show splitOnSeqF sep (s.length + 1) s ≠ []
  simp only [splitOnSeqF]
  split
  · simp
  · split <;> simp

/-- The stream-splitting law: splitting `X ++ Y` yields the complete
segments of `X` followed by the splitting of `X`'s carry joined with `Y`. -/
theorem splitOnSeq_append {sep : List Char} (hsep : sep ≠ []) :
    ∀ (n : Nat) (X Y : List Char), X.length ≤ n →
      splitOnSeq sep (X ++ Y) =
        (splitOnSeq sep X).dropLast ++
          splitOnSeq sep ((splitOnSeq sep X).getLastD [] ++ Y) := by
  intro n
  induction n with
  | zero =>
    intro X Y hX
    have hXnil : X = [] := List.eq_nil_of_length_eq_zero (by omega)
    subst hXnil
    rw [List.nil_append]
    rw [splitOnSeq_eq hsep []]
    simp [findSep]
  | succ n ih =>
    intro X Y hX
    cases hfind : findSep sep X with
    | none =>
      rw [splitOnSeq_eq hsep X, hfind]
      simp
    | some pp =>
      obtain ⟨pre, post⟩ := pp
      have hlt := findSep_post_length hsep hfind
      have hXY : findSep sep (X ++ Y) = some (pre, post ++ Y) :=
        findSep_some_append Y hfind
      rw [splitOnSeq_eq hsep (X ++ Y), hXY, splitOnSeq_eq hsep X, hfind]
      show pre :: splitOnSeq sep (post ++ Y) =
        (pre :: splitOnSeq sep post).dropLast ++
          splitOnSeq sep ((pre :: splitOnSeq sep post).getLastD [] ++ Y)
      rw [ih post Y (by omega)]
      obtain ⟨a, S', hS⟩ : ∃ a S', splitOnSeq sep post = a :: S' := by
        cases hS0 : splitOnSeq sep post with
        | nil => exact absurd hS0 (splitOnSeq_ne_nil sep post)
        | cons a S' => exact ⟨a, S', rfl⟩
      rw [hS]
      simp [List.getLastD_cons]

/-- The carry (last split segment) contains no further separator
occurrence. -/
theorem findSep_carry_none {sep : List Char} (hsep : sep ≠ []) :
    ∀ (n : Nat) (t : List Char), t.length ≤ n →
      findSep sep ((splitOnSeq sep t).getLastD []) = none := by
  intro n
  induction n with
  | zero =>
    intro t ht
    have htnil : t = [] := List.eq_nil_of_length_eq_zero (by omega)
    subst htnil
    rw [splitOnSeq_eq hsep []]
    simp [findSep]
  | succ n ih =>
    intro t ht
    rw [splitOnSeq_eq hsep t]
    cases hfind : findSep sep t with
    | none => simpa using hfind
    | some pp =>
      obtain ⟨pre, post⟩ := pp
      have hlt := findSep_post_length hsep hfind
      obtain ⟨a, S', hS⟩ : ∃ a S', splitOnSeq sep post = a :: S' := by
        cases hS0 : splitOnSeq sep post with
        | nil => exact absurd hS0 (splitOnSeq_ne_nil sep post)
        | cons a S' => exact ⟨a, S', rfl⟩
      have hih := ih post (by omega)
      rw [hS, List.getLastD_cons] at hih
      show findSep sep ((pre :: splitOnSeq sep post).getLastD []) = none
      rw [hS]
      show findSep sep ((pre :: a :: S').getLastD []) = none
      rw [List.getLastD_cons, List.getLastD_cons]
      exact hih

/-! ## Chunk-splitting equivalence (claim C2): parser lemmas -/

/-- A positive `to` bound (a positive integer or infinity). -/
def toPos : ToVal → Prop
  | .fin i => 0 < i
  | .inf => True

theorem outOfRange_total_irrel {lineFrom : Int} {lineTo : ToVal}
    (hf : 0 < lineFrom) (ht : toPos lineTo) (T T' line : Int) :
    outOfRange lineFrom lineTo T line = outOfRange lineFrom lineTo T' line := by
  have h1 : ¬(lineFrom < 0) := by omega
  cases lineTo with
  | inf =>
    simp only [outOfRange]
    rw [decide_eq_false h1]
    simp
  | fin i =>
    have hi : (0 : Int) < i := ht
    have h2 : ¬(i < 0) := by omega
    simp only [outOfRange]
    rw [decide_eq_false h1, decide_eq_false h2]
    simp

theorem emitLines_cons_out (options : ParsedOptions) (T line : Int)
    (c : List Char) (rest : List (List Char))
    (h : outOfRange options.lineFrom options.lineTo T line = true) :
    emitLines options T line (c :: rest) = emitLines options T (line + 1) rest := by
  simp [emitLines, h]

theorem emitLines_cons_emit (options : ParsedOptions) (T line : Int)
    (c : List Char) (rest : List (List Char))
    (h : outOfRange options.lineFrom options.lineTo T line = false)
    (h2 : 0 < c.length ∨ (!options.skipEmptyLines) = true) :
    emitLines options T line (c :: rest) =
      ((line, c) :: (emitLines options T (line + 1) rest).1,
        (emitLines options T (line + 1) rest).2) := by
  simp only [emitLines]
  rw [if_neg (by simp [h]), if_pos h2]

theorem emitLines_cons_skip (options : ParsedOptions) (T line : Int)
    (c : List Char) (rest : List (List Char))
    (h : outOfRange options.lineFrom options.lineTo T line = false)
    (h2 : ¬(0 < c.length ∨ (!options.skipEmptyLines) = true)) :
    emitLines options T line (c :: rest) = emitLines options T line rest := by
  simp only [emitLines]
  rw [if_neg (by simp [h]), if_neg h2]

theorem emitLines_total_irrel (options : ParsedOptions)
    (hf : 0 < options.lineFrom) (ht : toPos options.lineTo) (T T' : Int) :
    ∀ (L : List (List Char)) (line : Int),
      emitLines options T line L = emitLines options T' line L := by
  intro L
  induction L with
  | nil => intro line; rfl
  | cons c rest ih =>
    intro line
    rcases Bool.eq_false_or_eq_true
      (outOfRange options.lineFrom options.lineTo T line) with h1 | h1
    · have h1' : outOfRange options.lineFrom options.lineTo T' line = true := by
        rw [← outOfRange_total_irrel hf ht T T' line]
        exact h1
      rw [emitLines_cons_out options T line c rest h1,
        emitLines_cons_out options T' line c rest h1']
      exact ih (line + 1)
    · have h1' : outOfRange options.lineFrom options.lineTo T' line = false := by
        rw [← outOfRange_total_irrel hf ht T T' line]
        exact h1
      by_cases h2 : (0 < c.length ∨ (!options.skipEmptyLines) = true)
      · rw [emitLines_cons_emit options T line c rest h1 h2,
          emitLines_cons_emit options T' line c rest h1' h2, ih (line + 1)]
      · rw [emitLines_cons_skip options T line c rest h1 h2,
          emitLines_cons_skip options T' line c rest h1' h2]
        exact ih line

theorem emitLines_append (options : ParsedOptions) (T : Int) :
    ∀ (L1 L2 : List (List Char)) (line : Int),
      emitLines options T line (L1 ++ L2) =
        ((emitLines options T line L1).1 ++
          (emitLines options T (emitLines options T line L1).2 L2).1,
         (emitLines options T (emitLines options T line L1).2 L2).2) := by
  intro L1
  induction L1 with
  | nil => intro L2 line; simp [emitLines]
  | cons c rest ih =>
    intro L2 line
    rw [List.cons_append]
    rcases Bool.eq_false_or_eq_true
      (outOfRange options.lineFrom options.lineTo T line) with h1 | h1
    · rw [emitLines_cons_out options T line c (rest ++ L2) h1,
        emitLines_cons_out options T line c rest h1]
      exact ih L2 (line + 1)
    · by_cases h2 : (0 < c.length ∨ (!options.skipEmptyLines) = true)
      · rw [emitLines_cons_emit options T line c (rest ++ L2) h1 h2,
          emitLines_cons_emit options T line c rest h1 h2, ih L2 (line + 1)]
        simp
      · rw [emitLines_cons_skip options T line c (rest ++ L2) h1 h2,
          emitLines_cons_skip options T line c rest h1 h2]
        exact ih L2 line

/-- `write`'s totalLines for a given accumulated text. -/
def wTL (e text : List Char) : Int :=
  if 0 < ((splitOnSeq e text).getLastD []).length
  then ((splitOnSeq e text).dropLast.length : Int) + 1
  else ((splitOnSeq e text).dropLast.length : Int)

/-- `writeStep` with a locked-in end-of-line value, as one equation. -/
theorem writeStep_eol_ne (options : ParsedOptions) (s : PState)
    (input : List Char) (h : s.eolCur ≠ []) :
    writeStep options s input =
      ((emitLines options (wTL s.eolCur (s.text ++ input)) s.line
          (splitOnSeq s.eolCur (s.text ++ input)).dropLast).1,
        ⟨s.eolCur,
          (splitOnSeq s.eolCur (s.text ++ input)).getLastD [],
          (emitLines options (wTL s.eolCur (s.text ++ input)) s.line
            (splitOnSeq s.eolCur (s.text ++ input)).dropLast).2,
          wTL s.eolCur (s.text ++ input)⟩) := by
  unfold writeStep wTL
  simp only [if_neg h]

/-- Two parser states that agree on everything except the `totalLines`
scratch value. -/
def SEquiv (s t : PState) : Prop :=
  s.eolCur = t.eolCur ∧ s.text = t.text ∧ s.line = t.line

theorem writeStep_congr (options : ParsedOptions) {s t : PState}
    (hs : s.eolCur ≠ []) (hE : SEquiv s t) (input : List Char) :
    writeStep options s input = writeStep options t input := by
  obtain ⟨h1, h2, h3⟩ := hE
  have hts : t.eolCur ≠ [] := h1 ▸ hs
  rw [writeStep_eol_ne options s input hs, writeStep_eol_ne options t input hts,
    h1, h2, h3]

theorem writeStep_append (options : ParsedOptions)
    (hf : 0 < options.lineFrom) (ht : toPos options.lineTo)
    (s : PState) (hs : s.eolCur ≠ []) (a b : List Char) :
    (writeStep options s (a ++ b)).1 =
      (writeStep options s a).1 ++
        (writeStep options (writeStep options s a).2 b).1 ∧
    SEquiv (writeStep options s (a ++ b)).2
      (writeStep options (writeStep options s a).2 b).2 := by
  have hS1eol : (writeStep options s a).2.eolCur = s.eolCur := by
    rw [writeStep_eol_ne options s a hs]
  have hS1text : (writeStep options s a).2.text =
      (splitOnSeq s.eolCur (s.text ++ a)).getLastD [] := by
    rw [writeStep_eol_ne options s a hs]
  have hS1line : (writeStep options s a).2.line =
      (emitLines options (wTL s.eolCur (s.text ++ a)) s.line
        (splitOnSeq s.eolCur (s.text ++ a)).dropLast).2 := by
    rw [writeStep_eol_ne options s a hs]
  have hs1 : (writeStep options s a).2.eolCur ≠ [] := by
    rw [hS1eol]
    exact hs
  rw [writeStep_eol_ne options (writeStep options s a).2 b hs1]
  rw [hS1eol, hS1text, hS1line]
  rw [writeStep_eol_ne options s (a ++ b) hs]
  rw [writeStep_eol_ne options s a hs]
  dsimp only
  have hassoc : s.text ++ (a ++ b) = (s.text ++ a) ++ b :=
    (List.append_assoc s.text a b).symm
  rw [hassoc]
  have hkey : splitOnSeq s.eolCur ((s.text ++ a) ++ b) =
      (splitOnSeq s.eolCur (s.text ++ a)).dropLast ++
        splitOnSeq s.eolCur
          ((splitOnSeq s.eolCur (s.text ++ a)).getLastD [] ++ b) :=
    splitOnSeq_append hs ((s.text ++ a).length) (s.text ++ a) b (le_refl _)
  rw [hkey]
  have hne2 := splitOnSeq_ne_nil s.eolCur
    ((splitOnSeq s.eolCur (s.text ++ a)).getLastD [] ++ b)
  have hdrop : ((splitOnSeq s.eolCur (s.text ++ a)).dropLast ++
      splitOnSeq s.eolCur
        ((splitOnSeq s.eolCur (s.text ++ a)).getLastD [] ++ b)).dropLast =
      (splitOnSeq s.eolCur (s.text ++ a)).dropLast ++
        (splitOnSeq s.eolCur
          ((splitOnSeq s.eolCur (s.text ++ a)).getLastD [] ++ b)).dropLast :=
    List.dropLast_append_of_ne_nil _ hne2
  have hlastD : ∀ (l1 l2 : List (List Char)), l2 ≠ [] →
      (l1 ++ l2).getLastD [] = l2.getLastD [] := by
    intro l1 l2 h
    rw [List.getLastD_eq_getLast?, List.getLastD_eq_getLast?,
      List.getLast?_append_of_ne_nil l1 h]
  rw [hdrop, hlastD _ _ hne2]
  rw [emitLines_append options _ (splitOnSeq s.eolCur (s.text ++ a)).dropLast
    (splitOnSeq s.eolCur
      ((splitOnSeq s.eolCur (s.text ++ a)).getLastD [] ++ b)).dropLast s.line]
  rw [emitLines_total_irrel options hf ht
    (wTL s.eolCur ((s.text ++ a) ++ b) ) (wTL s.eolCur (s.text ++ a))
    (splitOnSeq s.eolCur (s.text ++ a)).dropLast s.line]
  rw [emitLines_total_irrel options hf ht
    (wTL s.eolCur ((s.text ++ a) ++ b))
    (wTL s.eolCur ((splitOnSeq s.eolCur (s.text ++ a)).getLastD [] ++ b))
    (splitOnSeq s.eolCur
      ((splitOnSeq s.eolCur (s.text ++ a)).getLastD [] ++ b)).dropLast
    (emitLines options (wTL s.eolCur (s.text ++ a)) s.line
      (splitOnSeq s.eolCur (s.text ++ a)).dropLast).2]
  exact ⟨rfl, rfl, rfl, rfl⟩

theorem endStep_events_congr (options : ParsedOptions)
    (hf : 0 < options.lineFrom) (ht : toPos options.lineTo)
    {s t : PState} (hE : SEquiv s t) :
    (endStep options s).1 = (endStep options t).1 := by
  obtain ⟨h1, h2, h3⟩ := hE
  show (if 0 < s.text.length &&
      !outOfRange options.lineFrom options.lineTo s.totalLines s.line then
      [(s.line, s.text)] else []) = _
  rw [h2, h3,
    outOfRange_total_irrel hf ht s.totalLines t.totalLines t.line]
  rfl

/-- A run over many chunks emits the same events as a single `write` of the
concatenated text, and ends in a state differing at most in the scratch
`totalLines` value — provided the end-of-line value is locked in and the
current carry holds no separator occurrence. -/
theorem runChunks_join (options : ParsedOptions)
    (hf : 0 < options.lineFrom) (ht : toPos options.lineTo) :
    ∀ (chunks : List (List Char)) (s : PState), s.eolCur ≠ [] →
      findSep s.eolCur s.text = none →
      (runChunks options s chunks).1 =
        (writeStep options s chunks.flatten).1 ∧
      SEquiv (runChunks options s chunks).2
        (writeStep options s chunks.flatten).2 := by
  intro chunks
  induction chunks with
  | nil =>
    intro s hs hnone
    have hsplit : splitOnSeq s.eolCur s.text = [s.text] := by
      rw [splitOnSeq_eq hs s.text, hnone]
    constructor
    · show ([] : List (Int × List Char)) = (writeStep options s []).1
      rw [writeStep_eol_ne options s [] hs, List.append_nil, hsplit]
      rfl
    · show SEquiv s (writeStep options s []).2
      rw [writeStep_eol_ne options s [] hs, List.append_nil, hsplit]
      exact ⟨rfl, rfl, rfl⟩
  | cons c cs ih =>
    intro s hs hnone
    have happ := writeStep_append options hf ht s hs c cs.flatten
    have hflat : (c :: cs).flatten = c ++ cs.flatten := rfl
    have hS1eol : (writeStep options s c).2.eolCur = s.eolCur := by
      rw [writeStep_eol_ne options s c hs]
    have hs1 : (writeStep options s c).2.eolCur ≠ [] := by
      rw [hS1eol]
      exact hs
    have hS1text : (writeStep options s c).2.text =
        (splitOnSeq s.eolCur (s.text ++ c)).getLastD [] := by
      rw [writeStep_eol_ne options s c hs]
    have hnone1 : findSep (writeStep options s c).2.eolCur
        (writeStep options s c).2.text = none := by
      rw [hS1eol, hS1text]
      exact findSep_carry_none hs (s.text ++ c).length (s.text ++ c)
        (le_refl _)
    obtain ⟨ihE, ihS⟩ := ih (writeStep options s c).2 hs1 hnone1
    constructor
    · show (writeStep options s c).1 ++
        (runChunks options (writeStep options s c).2 cs).1 =
        (writeStep options s ((c :: cs).flatten)).1
      rw [hflat, happ.1, ihE]
    · show SEquiv (runChunks options (writeStep options s c).2 cs).2
        (writeStep options s ((c :: cs).flatten)).2
      rw [hflat]
      obtain ⟨e1, e2, e3⟩ := ihS
      obtain ⟨f1, f2, f3⟩ := happ.2
      exact ⟨e1.trans f1.symm, e2.trans f2.symm, e3.trans f3.symm⟩

/-- The default one-field configuration with the start of the line range
moved to `-1` — a negative `from`, which the options parser accepts (its
negative-range checks are commented out in the test suite) and which `write`
resolves against the lines seen so far. -/
def c2Options : ParsedOptions :=
  { exOptions exLayout1 1 false with lineFrom := -1 }

/-- C2 counterexample.  Under `from: -1` the range filter of `Parser.write`
resolves the bound against the lines seen in the CURRENT call, so chunk
boundaries are observable: feeding `"a\n"` then `"b\n"` yields two records
("last line of each write"), while the single chunk `"a\nb\n"` yields one. -/
theorem c2_chunking_counterexample :
    (parseRecords c2Options ['\n'] [['a', '\n'], ['b', '\n']]).length = 2 ∧
    (parseRecords c2Options ['\n'] [['a', '\n', 'b', '\n']]).length = 1 := by
  exact ⟨rfl, rfl⟩

/-- C2 amended.  For a configuration with an explicit (nonempty) string
end-of-line value and a positive line range — in particular for the default
`from: 1`, `to: Infinity` — the parser is chunking-invariant: any chunking
of the input produces exactly the same `(line, text)` events, hence the same
records, as one single chunk. -/
theorem c2_chunking_amended (options : ParsedOptions)
    (hf : 0 < options.lineFrom) (ht : toPos options.lineTo)
    (eol0 : List Char) (he : eol0 ≠ []) (chunks : List (List Char)) :
    parseRecords options eol0 chunks =
      parseRecords options eol0 [chunks.flatten] := by
  have hnone0 : findSep eol0 ([] : List Char) = none := rfl
  obtain ⟨hE, hS⟩ :=
    runChunks_join options hf ht chunks ⟨eol0, [], 1, 0⟩ he hnone0
  show (parseEvents options eol0 chunks).map _ = _
  have hev : parseEvents options eol0 chunks =
      parseEvents options eol0 [chunks.flatten] := by
    show (runChunks options ⟨eol0, [], 1, 0⟩ chunks).1 ++
        (endStep options (runChunks options ⟨eol0, [], 1, 0⟩ chunks).2).1 =
      (runChunks options ⟨eol0, [], 1, 0⟩ [chunks.flatten]).1 ++
        (endStep options
          (runChunks options ⟨eol0, [], 1, 0⟩ [chunks.flatten]).2).1
    have hsingle : runChunks options ⟨eol0, [], 1, 0⟩ [chunks.flatten] =
        ((writeStep options ⟨eol0, [], 1, 0⟩ chunks.flatten).1 ++ [],
          (writeStep options ⟨eol0, [], 1, 0⟩ chunks.flatten).2) := rfl
    rw [hsingle, List.append_nil, hE,
      endStep_events_congr options hf ht hS]
  rw [hev]
  rfl

/-- Concrete instance of the C2 amended equivalence: the defaults (one
width-1 field, `from: 1`, `to: Infinity`), eol `"\n"`, input `"a\nb\n"` fed
as two chunks versus their concatenation. -/
theorem c2_chunking_amended_witness :
    parseRecords (exOptions exLayout1 1 false) ['\n']
        [['a', '\n'], ['b', '\n']] =
      parseRecords (exOptions exLayout1 1 false) ['\n']
        [([['a', '\n'], ['b', '\n']] : List (List Char)).flatten] :=
  c2_chunking_amended (exOptions exLayout1 1 false) (by decide) trivial
    ['\n'] (by decide) [['a', '\n'], ['b', '\n']]

/-! ## Empty-line policy (claim C8) -/

/-- C8 counterexample.  With `skipEmptyLines` (the default) the empty second
line of `"a\n\nb\n"` is dropped, but the line counter is NOT incremented for
it: the line `"b"` is handed to the codec as line 2.  The claim (the skipped
empty line "still consumes a line number") demands line 3 for `"b"`. -/
theorem c8_empty_line_counterexample :
    parseEvents (exOptions exLayout1 1 false) ['\n'] ["a\n\nb\n".toList] =
      [(1, ['a']), (2, ['b'])] := by
  decide

/-- C8 amended.  A zero-length complete line is dropped before reaching the
record codec whenever `skipEmptyLines` is enabled, and an out-of-range line
(empty or not) is dropped by the range filter; but only out-of-range and
emitted lines consume a line number — an in-range empty line skipped by
`skipEmptyLines` leaves the 1-based line counter unchanged. -/
theorem c8_empty_lines_amended :
    (∀ (options : ParsedOptions) (totalLines line : Int)
      (rest : List (List Char)),
      options.skipEmptyLines = true →
      outOfRange options.lineFrom options.lineTo totalLines line = false →
      emitLines options totalLines line ([] :: rest) =
        emitLines options totalLines line rest) ∧
    (∀ (options : ParsedOptions) (totalLines line : Int) (chunk : List Char)
      (rest : List (List Char)),
      outOfRange options.lineFrom options.lineTo totalLines line = true →
      emitLines options totalLines line (chunk :: rest) =
        emitLines options totalLines (line + 1) rest) ∧
    (∀ (options : ParsedOptions) (totalLines line : Int) (chunk : List Char)
      (rest : List (List Char)),
      outOfRange options.lineFrom options.lineTo totalLines line = false →
      (0 < chunk.length ∨ options.skipEmptyLines = false) →
      emitLines options totalLines line (chunk :: rest) =
        ((line, chunk) :: (emitLines options totalLines (line + 1) rest).1,
          (emitLines options totalLines (line + 1) rest).2)) := by
  refine ⟨?_, ?_, ?_⟩
  · intro options totalLines line rest hskip hrange
    simp [emitLines, hrange, hskip]
  · intro options totalLines line chunk rest hrange
    simp [emitLines, hrange]
  · intro options totalLines line chunk rest hrange hchunk
    have h2 : (0 < chunk.length ∨ (!options.skipEmptyLines) = true) := by
      rcases hchunk with h | h
      · exact Or.inl h
      · exact Or.inr (by simp [h])
    simp only [emitLines]
    rw [if_neg (by simp [hrange]), if_pos h2]

/-- C8 witness for the amended theorem: the three branches on concrete
states — an in-range skipped empty line, an out-of-range line, and an
emitted line. -/
theorem c8_empty_lines_amended_witness :
    emitLines (exOptions exLayout1 1 false) 3 2 [[], ['b']] =
      emitLines (exOptions exLayout1 1 false) 3 2 [['b']] ∧
    emitLines { exOptions exLayout1 1 false with lineFrom := 5 } 3 2
        [['a'], ['b']] =
      emitLines { exOptions exLayout1 1 false with lineFrom := 5 } 3 3 [['b']] ∧
    emitLines (exOptions exLayout1 1 false) 3 2 [['a']] =
      ((2, ['a']) :: (emitLines (exOptions exLayout1 1 false) 3 3 []).1,
        (emitLines (exOptions exLayout1 1 false) 3 3 []).2) :=
  ⟨c8_empty_lines_amended.1 (exOptions exLayout1 1 false) 3 2 [['b']] rfl
      (by decide),
    c8_empty_lines_amended.2.1 { exOptions exLayout1 1 false with lineFrom := 5 }
      3 2 ['a'] [['b']] (by decide),
    c8_empty_lines_amended.2.2 (exOptions exLayout1 1 false) 3 2 ['a'] []
      (by decide) (Or.inl (by decide))⟩

/-! ## The two copies of parseOptions (claim C10) -/

/-- The C10 discriminating input: `{ from: 10, to: 2, fields: [{width: 1}] }`. -/
def c10Input : OptionsInput :=
  .objIn { emptyOptionsObj (.arr [exItemW 1]) with
    lineFrom := .num (.int 10), lineTo := .num (.int 2) }

theorem buildOptions_ok_fromTo {o : OptionsObj} {encoding : String}
    {pad : Char} {eol : EolV} {lineFrom : Int} {lineTo : ToVal}
    {r : ParsedOptions}
    (h : buildOptions o encoding pad eol lineFrom lineTo = .ok r) :
    r.lineFrom = lineFrom ∧ r.lineTo = lineTo := by
  unfold buildOptions at h
  cases hfields : parseFields1 o.fields pad (optTrim o) with
  | error e => rw [hfields, exBind_error] at h; exact absurd h (by simp)
  | ok fields =>
    rw [hfields, exBind_ok] at h
    cases hw : getWidth fields with
    | error e => rw [hw, exBind_error] at h; exact absurd h (by simp)
    | ok width =>
      rw [hw, exBind_ok] at h
      by_cases hc : 0 < countProperties fields ∧ countProperties fields < fields.length
      · rw [if_pos hc] at h
        exact absurd h (by simp)
      · rw [if_neg hc] at h
        simp only [pure, Except.pure, Except.ok.injEq] at h
        subst h
        exact ⟨rfl, rfl⟩

theorem parseOptions_master (input : OptionsInput) :
    (parseOptionsMjs input = parseOptionsBundle input ∧
      ∀ r, parseOptionsBundle input = .ok r →
        (match r.lineTo with | .fin i => ¬ i < r.lineFrom | .inf => True)) ∨
    ((∀ r, parseOptionsBundle input = .ok r →
        (match r.lineTo with | .fin i => i < r.lineFrom | .inf => False)) ∧
      parseOptionsMjs input =
        .error "Ending line (to) must be greater or equal to the starting line (from)") := by
  unfold parseOptionsMjs parseOptionsBundle
  cases hE : optEncoding (toOptionsObj input) with
  | error e => left; rw [exBind_error, exBind_error]; simp
  | ok encoding =>
    rw [exBind_ok, exBind_ok]
    cases hP : optPad (toOptionsObj input) with
    | error e => left; rw [exBind_error, exBind_error]; simp
    | ok pad =>
      rw [exBind_ok, exBind_ok]
      cases hL : optEol (toOptionsObj input) with
      | error e => left; rw [exBind_error, exBind_error]; simp
      | ok eol =>
        rw [exBind_ok, exBind_ok]
        cases hF : optFrom (toOptionsObj input) with
        | error e => left; rw [exBind_error, exBind_error]; simp
        | ok lineFrom =>
          rw [exBind_ok, exBind_ok]
          cases hT : optTo (toOptionsObj input) with
          | error e => left; rw [exBind_error, exBind_error]; simp
          | ok lineTo =>
            rw [exBind_ok, exBind_ok]
            cases lineTo with
            | inf =>
              left
              refine ⟨rfl, ?_⟩
              intro r hr
              rcases buildOptions_ok_fromTo hr with ⟨-, h2⟩
              rw [h2]
              trivial
            | fin i =>
              by_cases hlt : i < lineFrom
              · right
                refine ⟨?_, by simp [hlt]⟩
                intro r hr
                rcases buildOptions_ok_fromTo hr with ⟨h1, h2⟩
                rw [h2, h1]
                exact hlt
              · left
                refine ⟨by simp [hlt], ?_⟩
                intro r hr
                rcases buildOptions_ok_fromTo hr with ⟨h1, h2⟩
                rw [h2, h1]
                exact hlt

/-- C10 counterexample.  On `{ from: 10, to: 2, fields: [{width: 1}] }` the
`options.mjs` copy throws (its `to < from` check) while the bundled copy —
whose `to < from` check is commented out — succeeds, so the two
`parseOptions` functions do not behave identically. -/
theorem c10_counterexample :
    parseOptionsMjs c10Input =
      .error "Ending line (to) must be greater or equal to the starting line (from)" ∧
    isOkE (parseOptionsBundle c10Input) = true :=
  ⟨rfl, rfl⟩

/-- C10 amended.  The two copies of `parseOptions` agree except for the
`to < from` validation, which only `options.mjs` performs: an `options.mjs`
success is also a bundle success with the same normalized object; a bundle
success whose resolved `to` is an integer smaller than the resolved `from`
makes `options.mjs` throw the range error (otherwise `options.mjs` returns
the identical object); and on a bundle failure `options.mjs` fails with the
same error unless the range check pre-empts it. -/
theorem c10_parse_options_amended :
    (∀ (input : OptionsInput) (r : ParsedOptions),
      parseOptionsMjs input = .ok r → parseOptionsBundle input = .ok r) ∧
    (∀ (input : OptionsInput) (r : ParsedOptions),
      parseOptionsBundle input = .ok r →
      (match r.lineTo with | .fin i => i < r.lineFrom | .inf => False) →
      parseOptionsMjs input =
        .error "Ending line (to) must be greater or equal to the starting line (from)") ∧
    (∀ (input : OptionsInput) (r : ParsedOptions),
      parseOptionsBundle input = .ok r →
      ¬(match r.lineTo with | .fin i => i < r.lineFrom | .inf => False) →
      parseOptionsMjs input = .ok r) ∧
    (∀ (input : OptionsInput) (e : String),
      parseOptionsBundle input = .error e →
      parseOptionsMjs input = .error e ∨
      parseOptionsMjs input =
        .error "Ending line (to) must be greater or equal to the starting line (from)") := by
  refine ⟨?_, ?_, ?_, ?_⟩
  · intro input r h
    rcases parseOptions_master input with ⟨heq, -⟩ | ⟨-, herr⟩
    · rw [← heq]; exact h
    · rw [herr] at h; exact absurd h (by simp)
  · intro input r h hlt
    rcases parseOptions_master input with ⟨-, hok⟩ | ⟨-, herr⟩
    · have hn := hok r h
      cases hTo : r.lineTo with
      | fin i =>
        rw [hTo] at hlt hn
        exact absurd hlt hn
      | inf => rw [hTo] at hlt; exact absurd hlt (by simp)
    · exact herr
  · intro input r h hnlt
    rcases parseOptions_master input with ⟨heq, -⟩ | ⟨hcond, -⟩
    · rw [heq]; exact h
    · exact absurd (hcond r h) hnlt
  · intro input e h
    rcases parseOptions_master input with ⟨heq, -⟩ | ⟨-, herr⟩
    · left; rw [heq]; exact h
    · right; exact herr

/-- C10 witness: applying the amended relation at the discriminating input
(the bundled copy succeeds with `from = 10`, `to = 2`; the `options.mjs`
copy therefore throws the range error). -/
theorem c10_parse_options_amended_witness :
    parseOptionsMjs c10Input =
      .error "Ending line (to) must be greater or equal to the starting line (from)" :=
  c10_parse_options_amended.2.1 c10Input
    { allowLongerLines := true, allowShorterLines := false, encoding := "utf8"
      eof := true, eol := .strE [], fields := [exField 1 1 (.idx 0)]
      lineFrom := 10, output := .array, pad := ' ', skipEmptyLines := true
      lineTo := .fin 2, trim := .tru, width := 1 }
    rfl (by decide)

end FixedWidth
